import Mathlib

/-!
Shallow embedding of the `revisit` sun-visibility window engine
(`server/spots/utils/sun.py`, `server/spots/utils/weather.py`,
`server/spots/models.py`, `server/spots/api/views.py`).

Modelling conventions:
* `datetime` values are absolute instants in integer microseconds (`ℤ`);
  `timedelta(minutes=m)` is `minutes m`.  Python datetimes carry microsecond
  resolution, so all datetime arithmetic in the source is exact integer
  arithmetic at this scale.
* Degrees (azimuth, elevation) are exact rationals (`ℚ`); IEEE doubles embed
  into `ℚ` and every comparison in the source is an exact comparison of the
  stored values.
* The astral sun-position provider and the timezone resolver are external
  collaborators: a scan is parameterised by elevation/azimuth functions
  `el az : ℤ → ℚ` over instants and by the local-midnight instant `startT`
  (`tz.localize(datetime.combine(on_date, time(0,0)))`); the source always
  scans `[startT, startT + 1 day]`.
* Python lists are Lean lists; `list.sort(key=...)` is a stable sort by the
  key, modelled by stable insertion sort (every stable sort computes the same
  permutation, so this is extensionally the behaviour of CPython's sort).
* Python exceptions from collaborators are modelled with `Except String`.
-/

/-- Microseconds per minute; `timedelta(minutes=1)` at `datetime` resolution. -/
def usPerMinute : ℤ := 60000000

/-- `timedelta(minutes=m)` as an integer number of microseconds. -/
def minutes (m : ℤ) : ℤ := m * usPerMinute

/-- `MIN_STEP_MINUTES = 5` from `utils/sun.py`. -/
def MIN_STEP_MINUTES : ℤ := 5

/-- Python `x % y` on floats for a positive divisor `y`:
`x - y * floor(x / y)`, the representative in `[0, y)`.
Built from integer operations on the numerator/denominator so that the
definition is executable by kernel reduction; the value is exactly
`x - y * ⌊x / y⌋` (see `fmod_eq_sub_mul_floor`). -/
def fmod (x y : ℚ) : ℚ :=
  let k : ℤ := (x.num * y.den).fdiv (x.den * y.num)
  mkRat (x.num * y.den - y.num * k * x.den) (x.den * y.den)

/-- An azimuth interval dict `{"start": s, "end": e}` in degrees. -/
structure AzInterval where
  start : ℚ
  end_ : ℚ
deriving DecidableEq, Repr

/-- `_wrap_contains(interval, angle)` from `utils/sun.py`: normalise
`start`, `end`, `angle` into `[0,360)` and test circular containment. -/
def _wrap_contains (iv : AzInterval) (angle : ℚ) : Bool :=
  let s := fmod iv.start 360
  let e := fmod iv.end_ 360
  let a := fmod angle 360
  (decide (s ≤ e) && (decide (s ≤ a) && decide (a ≤ e))) ||
    (decide (e < s) && (decide (s ≤ a) || decide (a ≤ e)))

/-- `SunWindow` dataclass: a half-open-by-construction pair of instants. -/
structure SunWindow where
  start : ℤ
  end_ : ℤ
deriving DecidableEq, Repr

/-- Stable insertion of `a` into `l`: `a` goes in front of the first element
it compares `le` to, after every strictly earlier one. -/
def insertStable {α : Type} (le : α → α → Bool) (a : α) : List α → List α
  | [] => [a]
  | b :: l => if le a b then a :: b :: l else b :: insertStable le a l

/-- Stable sort by `le` (insertion sort).  CPython's `list.sort` is stable,
and all stable sorts agree, so this models `windows.sort(key=...)`. -/
def stableSort {α : Type} (le : α → α → Bool) : List α → List α
  | [] => []
  | a :: l => insertStable le a (stableSort le l)

/-- The accumulation loop of `merge_adjacent`: `cur` is the window under
construction (`out[-1]` in the source); a next window within `tol` of
`cur.end_` is absorbed (extending the end to the max), otherwise `cur` is
emitted and the next window becomes current. -/
def mergeLoop (tol : ℤ) (cur : SunWindow) : List SunWindow → List SunWindow
  | [] => [cur]
  | w :: ws =>
    if w.start - cur.end_ ≤ tol then mergeLoop tol ⟨cur.start, max cur.end_ w.end_⟩ ws
    else cur :: mergeLoop tol w ws

/-- `merge_adjacent(windows, step_minutes)` from `utils/sun.py`: sort by
start, then coalesce windows whose gap is at most
`timedelta(minutes=step_minutes)`. -/
def merge_adjacent (windows : List SunWindow) (step_minutes : ℤ) : List SunWindow :=
  match stableSort (fun a b => decide (a.start ≤ b.start)) windows with
  | [] => []
  | w :: ws => mergeLoop (minutes step_minutes) w ws

/-- The while-loop of `sun_windows_for_day`: edge detection over the sampled
`good` signal.  `cur = some s` models `cur_on = True, cur_start = s`;
a true-to-false edge appends the window `[s, t)`; if the loop ends while
inside a run, the final window is closed at `endT` (`end` in the source). -/
def scanLoop (good : ℤ → Bool) (endT : ℤ) :
    List ℤ → Option ℤ → List SunWindow → List SunWindow
  | [], none, acc => acc
  | [], some s, acc => acc ++ [⟨s, endT⟩]
  | t :: ts, none, acc =>
    if good t then scanLoop good endT ts (some t) acc
    else scanLoop good endT ts none acc
  | t :: ts, some s, acc =>
    if good t then scanLoop good endT ts (some s) acc
    else scanLoop good endT ts none (acc ++ [⟨s, t⟩])

/-- The sample instants visited by `while t <= end: ...; t += step`:
`startT + step * i` for `i = 0, …, n`. -/
def sampleTimes (startT step : ℤ) (n : ℕ) : List ℤ :=
  (List.range (n + 1)).map (fun i : ℕ => startT + step * (i : ℤ))

/-- Number of steps the while-loop takes beyond the first sample:
`⌊(endT - startT) / step⌋` for `startT ≤ endT`, `0 < step`. -/
def numSteps (startT endT step : ℤ) : ℕ :=
  (endT - startT).toNat / step.toNat

/-- `sun_windows_for_day` from `utils/sun.py`, with the astral provider
abstracted as `el az : ℤ → ℚ` and the local midnight of `on_date` as
`startT`.  Scans the day `[startT, startT + 1 day]` at `step_minutes`,
with `good(t) = el(t) >= min_elevation_deg and any(_wrap_contains(iv, az(t)))`,
then merges with tolerance `step_minutes`. -/
def sun_windows_for_day (el az : ℤ → ℚ) (startT : ℤ)
    (azimuth_intervals : List AzInterval) (min_elevation_deg : ℚ)
    (step_minutes : ℤ) : List SunWindow :=
  if azimuth_intervals.isEmpty then []
  else
    let endT := startT + minutes 1440
    let step := minutes step_minutes
    let ts := sampleTimes startT step (numSteps startT endT step)
    merge_adjacent
      (scanLoop
        (fun t =>
          decide (min_elevation_deg ≤ el t) &&
            azimuth_intervals.any (fun iv => _wrap_contains iv (az t)))
        endT ts none [])
      step_minutes

/-- The double loop of `intersect_with_allowed_hours` before the final merge:
for every (window, allowed range) pair keep `[max starts, min ends)` when it
has strictly positive duration. -/
def collectOverlaps (windows : List SunWindow) (allowed : List (ℤ × ℤ)) :
    List SunWindow :=
  windows.flatMap fun ws =>
    allowed.filterMap fun a =>
      let s := max ws.start a.1
      let e := min ws.end_ a.2
      if s < e then some ⟨s, e⟩ else none

/-- `intersect_with_allowed_hours(windows, allowed)` from `utils/sun.py`:
collect pairwise overlaps, then re-merge with `MIN_STEP_MINUTES`. -/
def intersect_with_allowed_hours (windows : List SunWindow)
    (allowed : List (ℤ × ℤ)) : List SunWindow :=
  merge_adjacent (collectOverlaps windows allowed) MIN_STEP_MINUTES

/-- `code_to_category(code)` from `utils/weather.py`: collapse WMO
weather codes into coarse categories, defaulting to `"cloudy"`. -/
def code_to_category (code : ℤ) : String :=
  if code = 0 then "sunny"
  else if code = 1 then "mostly_clear"
  else if code = 2 then "partly_cloudy"
  else if code = 3 then "cloudy"
  else if code = 45 ∨ code = 48 then "overcast"
  else if code ∈ [51, 53, 55, 56, 57, 61, 63, 65, 66, 67, 80, 81, 82, 95, 96, 99] then "rain"
  else if code ∈ [71, 73, 75, 77, 85, 86] then "snow"
  else "cloudy"

/-- `timedelta(hours=1)` in microseconds. -/
def usPerHour : ℤ := minutes 60

/-- The `for i, ts in enumerate(times)` loop of `hourly_allowed_ranges`.
`codes[i]` raising `IndexError` is modelled by returning `none`; the hourly
timestamps are already parsed to instants.  Returns the collected ranges
together with the final `cur_start`. -/
def hourlyLoop (codes : List ℤ) (desired : List String) :
    List ℤ → ℕ → Option ℤ → List (ℤ × ℤ) → Option (List (ℤ × ℤ) × Option ℤ)
  | [], _, cur, out => some (out, cur)
  | t :: ts, i, cur, out =>
    match codes[i]? with
    | none => none
    | some code =>
      let cat := code_to_category code
      let ok := desired.isEmpty || desired.contains cat
      match cur, ok with
      | none, true => hourlyLoop codes desired ts (i + 1) (some t) out
      | some s, false => hourlyLoop codes desired ts (i + 1) none (out ++ [(s, t)])
      | _, _ => hourlyLoop codes desired ts (i + 1) cur out

/-- `hourly_allowed_ranges` from `utils/weather.py`, after the HTTP fetch:
given the parsed hourly instants and weather codes and the desired category
set, return the maximal runs of allowed hours; a trailing open run is closed
at `times[-1] + timedelta(hours=1)`. -/
def hourly_allowed_ranges (times codes : List ℤ) (desired : List String) :
    Option (List (ℤ × ℤ)) :=
  if times.isEmpty || codes.isEmpty then some []
  else
    match hourlyLoop codes desired times 0 none [] with
    | none => none
    | some (out, none) => some out
    | some (out, some s) =>
      match times.getLast? with
      | none => none
      | some last => some (out ++ [(s, last + usPerHour)])

/-- `SunlightDirection` text choices from `enums.py`. -/
inductive SunlightDirection
  | FRONT
  | FRONT_LEFT
  | FRONT_RIGHT
  | SIDE_LEFT
  | SIDE_RIGHT
  | BACK
deriving DecidableEq, Repr

/-- The fields of the `Spot` model that the engine and views consume. -/
structure Spot where
  id : ℕ
  camera_azimuth : Option ℚ
  desired_directions : List SunlightDirection
  desired_azimuth_ranges : List AzInterval
  min_sun_elevation : ℚ
  updated_at : ℤ
deriving DecidableEq, Repr

/-- The `mapping.get(d, None)` lookup in `Spot.compute_azimuth_ranges`:
only four of the six declared directions have a centre; `FRONT_LEFT` and
`FRONT_RIGHT` are absent from the mapping. -/
def directionCenter (base : ℚ) : SunlightDirection → Option ℚ
  | .FRONT => some base
  | .SIDE_LEFT => some (fmod (base - 90) 360)
  | .SIDE_RIGHT => some (fmod (base + 90) 360)
  | .BACK => some (fmod (base + 180) 360)
  | _ => none

/-- `centered_range(center)` from `Spot.compute_azimuth_ranges`. -/
def centered_range (tolerance center : ℚ) : AzInterval :=
  ⟨fmod (center - tolerance) 360, fmod (center + tolerance) 360⟩

/-- `Spot.compute_azimuth_ranges(tolerance)` from `models.py`. -/
def compute_azimuth_ranges (s : Spot) (tolerance : ℚ) : List AzInterval :=
  match s.camera_azimuth with
  | none => []
  | some caz =>
    if s.desired_directions.isEmpty then []
    else
      let base := fmod caz 360
      s.desired_directions.filterMap fun d =>
        (directionCenter base d).map (centered_range tolerance)

/-- Python truthiness of the `Optional[float]` field `camera_azimuth`:
`None` and `0.0` are falsy. -/
def pyTruthy : Option ℚ → Bool
  | none => false
  | some x => !(x == 0)

/-- `Spot.save` from `models.py`: recompute `desired_azimuth_ranges`
when `self.camera_azimuth and self.desired_directions` is truthy
(default tolerance 30.0), then persist. -/
def Spot.save (s : Spot) : Spot :=
  if pyTruthy s.camera_azimuth && !s.desired_directions.isEmpty then
    { s with desired_azimuth_ranges := compute_azimuth_ranges s 30 }
  else s

/-- A `SunWindowCache` row: key `(spot, for_date)`, cached windows, and
`computed_at` (set by `auto_now_add` at row creation only). -/
structure SunWindowCache where
  spot : ℕ
  for_date : ℤ
  windows : List SunWindow
  computed_at : ℤ
deriving DecidableEq, Repr

/-- Row `e` is stored under the key `(sid, d)`. -/
def keyMatch (e : SunWindowCache) (sid : ℕ) (d : ℤ) : Bool :=
  e.spot == sid && e.for_date == d

/-- `SunWindowCache.objects.filter(spot=…, for_date=…).first()`. -/
def cacheFind (store : List SunWindowCache) (sid : ℕ) (d : ℤ) :
    Option SunWindowCache :=
  store.find? fun e => keyMatch e sid d

/-- `SunWindowCache.objects.update_or_create(spot=…, for_date=…,
defaults={"windows": ws})`: update the matching row's `windows` in place
(`computed_at` has `auto_now_add=True`, so it is only set when a row is
created), or create a new row with `computed_at = now`. -/
def update_or_create (store : List SunWindowCache) (sid : ℕ) (d : ℤ)
    (ws : List SunWindow) (now : ℤ) : List SunWindowCache :=
  match store with
  | [] => [⟨sid, d, ws, now⟩]
  | e :: rest =>
    if keyMatch e sid d then { e with windows := ws } :: rest
    else e :: update_or_create rest sid d ws now

/-- Number of cache rows stored under the key `(sid, d)`. -/
def countKey (store : List SunWindowCache) (sid : ℕ) (d : ℤ) : ℕ :=
  (store.filter fun e => keyMatch e sid d).length

/-- The database unique constraint `unique_together = (spot, for_date)`:
at most one row per key. -/
def keyUnique (store : List SunWindowCache) : Prop :=
  ∀ sid d, countKey store sid d ≤ 1

/-- Outcome of the `windows` endpoint body: the served windows, and whether
the recompute branch ran (`sun_windows_for_day` was invoked). -/
structure WindowsResponse where
  windows : List SunWindow
  recomputed : Bool
deriving DecidableEq, Repr

/-- `SpotViewSet.windows` from `api/views.py`, after request validation:
consult the cache; recompute and upsert iff there is no entry or the spot
changed after the entry was computed (`spot.updated_at > cache.computed_at`).
`startT` is the spot's local midnight of the queried date `d`;
`now` is the wall-clock instant of a row creation. -/
def windowsView (el az : ℤ → ℚ) (startT d now : ℤ)
    (store : List SunWindowCache) (spot : Spot) :
    WindowsResponse × List SunWindowCache :=
  match cacheFind store spot.id d with
  | some cache =>
    if spot.updated_at > cache.computed_at then
      let ws := sun_windows_for_day el az startT spot.desired_azimuth_ranges
        spot.min_sun_elevation MIN_STEP_MINUTES
      (⟨ws, true⟩, update_or_create store spot.id d ws now)
    else (⟨cache.windows, false⟩, store)
  | none =>
    let ws := sun_windows_for_day el az startT spot.desired_azimuth_ranges
      spot.min_sun_elevation MIN_STEP_MINUTES
    (⟨ws, true⟩, update_or_create store spot.id d ws now)

/-- One candidate spot of a suggestion run.  The two external collaborator
calls that the loop may make for the candidate are supplied as data:
`sunResult` is the outcome of the `sun_windows_for_day` call (the astral
provider may raise) and `weatherResult` the outcome of
`hourly_allowed_ranges` (the HTTP fetch may raise). -/
structure Candidate where
  spot : Spot
  distance : ℚ
  hasLocation : Bool
  desired_weather : List String
  sunResult : Except String (List SunWindow)
  weatherResult : Except String (List (ℤ × ℤ))

/-- One entry of the suggestions response. -/
structure Suggestion where
  id : ℕ
  distance_m : ℚ
  time_windows : List SunWindow
deriving DecidableEq, Repr

/-- The body of the `for s in qs:` loop of `SuggestionsAPI.get` for one
candidate: cache-or-compute the sun windows (upserting on recompute), then
either intersect with the weather-allowed hours (non-empty desired weather)
or serve the cached windows as-is; `none` means `continue` (candidate
skipped), `.error` a propagating exception. -/
def cacheOrCompute (d now : ℤ) (store : List SunWindowCache)
    (c : Candidate) : Except String (List SunWindow × List SunWindowCache) :=
  match cacheFind store c.spot.id d with
  | some cache =>
    if c.spot.updated_at > cache.computed_at then
      match c.sunResult with
      | .error e => .error e
      | .ok ws => .ok (ws, update_or_create store c.spot.id d ws now)
    else .ok (cache.windows, store)
  | none =>
    match c.sunResult with
    | .error e => .error e
    | .ok ws => .ok (ws, update_or_create store c.spot.id d ws now)

def processCandidate (d now : ℤ) (store : List SunWindowCache)
    (c : Candidate) :
    Except String (Option Suggestion × List SunWindowCache) :=
  match cacheOrCompute d now store c with
  | .error e => .error e
  | .ok (cachedWindows, store') =>
    if c.desired_weather.isEmpty then
      if cachedWindows.isEmpty then .ok (none, store')
      else .ok (some ⟨c.spot.id, c.distance, cachedWindows⟩, store')
    else
      match c.weatherResult with
      | .error e => .error e
      | .ok allowed =>
        if allowed.isEmpty then .ok (none, store')
        else
          let merged := intersect_with_allowed_hours cachedWindows allowed
          if merged.isEmpty then .ok (none, store')
          else .ok (some ⟨c.spot.id, c.distance, merged⟩, store')

/-- Appending a processed candidate's outcome to the results: a suggestion
is collected, a skipped candidate (`continue`) contributes nothing. -/
def suggestionsStep (o : Option Suggestion) (rest : List Suggestion) :
    List Suggestion :=
  match o with
  | some s => s :: rest
  | none => rest

/-- The `for s in qs:` loop of `SuggestionsAPI.get`: candidates are
processed in order, threading the cache store; an exception from any
candidate propagates immediately (there is no `try/except` in the loop). -/
def suggestionsLoop (d now : ℤ) :
    List Candidate → List SunWindowCache →
    Except String (List Suggestion × List SunWindowCache)
  | [], store => .ok ([], store)
  | c :: cs, store =>
    match processCandidate d now store c with
    | .error e => .error e
    | .ok (res, store') =>
      match suggestionsLoop d now cs store' with
      | .error e => .error e
      | .ok (rest, store'') => .ok (suggestionsStep res rest, store'')

/-- `SuggestionsAPI.get` from `api/views.py`, after request validation:
the queryset keeps the user's candidates with a location, ordered by
distance from the user position (`order_by("distance")`, modelled as a
stable sort), clipped to `radius_km * 1000` metres when `radius_km > 0`;
then the per-candidate loop runs.  No sorting or truncation happens after
the loop. -/
def SuggestionsAPI_get (d now : ℤ) (radius_km : ℚ) (cands : List Candidate)
    (store : List SunWindowCache) :
    Except String (List Suggestion × List SunWindowCache) :=
  let qs := stableSort (fun a b => decide (a.distance ≤ b.distance))
    (cands.filter fun c => c.hasLocation)
  let qs := if 0 < radius_km then qs.filter (fun c => decide (c.distance ≤ radius_km * 1000))
    else qs
  suggestionsLoop d now qs store

/-- A concrete candidate for concrete suggestion runs: spot id `i` at
distance `i` metres, a location, no weather preference, and collaborators
that succeed with one sun window. -/
def sampleCandidate (i : ℕ) : Candidate :=
  ⟨⟨i, none, [], [], 5, 0⟩, (i : ℚ), true, [], .ok [⟨0, minutes 10⟩], .ok []⟩

/-- Eleven surviving candidates — more than the claimed output cap of 10. -/
def elevenCandidates : List Candidate := (List.range 11).map sampleCandidate

/-- A concrete candidate whose weather collaborator raises. -/
def badCandidate : Candidate :=
  ⟨⟨2, none, [], [], 5, 0⟩, 2, true, ["sunny"], .ok [⟨0, minutes 10⟩],
    .error "weather provider down"⟩

/-- Windows `a` and `b` are separated by a gap strictly above `tol`. -/
def sepGap (tol : ℤ) (a b : SunWindow) : Prop := tol < b.start - a.end_

/-- The full output invariant of claim C5 between two windows: sorted
ascending by start, non-overlapping, gap strictly above the tolerance. -/
def wellSeparated (tol : ℤ) (a b : SunWindow) : Prop :=
  a.start < b.start ∧ a.end_ < b.start ∧ tol < b.start - a.end_

/-- Instant `x` lies in some window of `W` (closed-endpoint reading). -/
def coveredBy (W : List SunWindow) (x : ℤ) : Prop :=
  ∃ w ∈ W, w.start ≤ x ∧ x ≤ w.end_

instance coveredByDecidable (W : List SunWindow) (x : ℤ) :
    Decidable (coveredBy W x) :=
  inferInstanceAs (Decidable (∃ w ∈ W, w.start ≤ x ∧ x ≤ w.end_))

/-! ### Sanity: `fmod` is Python's float `%` -/

theorem fmod_eq_sub_mul_floor (x y : ℚ) (hy : 0 < y) :
    fmod x y = x - y * (⌊x / y⌋ : ℤ) := by
  have hxden : (0:ℤ) < (x.den : ℤ) := Int.natCast_pos.mpr x.pos
  have hynum : (0:ℤ) < y.num := Rat.num_pos.mpr hy
  have hq : (0:ℤ) < (x.den : ℤ) * y.num := mul_pos hxden hynum
  have hxd : ((x.den : ℚ)) ≠ 0 := by positivity
  have hyd : ((y.den : ℚ)) ≠ 0 := by positivity
  have hxx : ((x.num : ℤ) : ℚ) = x * x.den := (div_eq_iff hxd).mp (Rat.num_div_den x)
  have hyy : ((y.num : ℤ) : ℚ) = y * y.den := (div_eq_iff hyd).mp (Rat.num_div_den y)
  have htn : ((((x.den : ℤ) * y.num).toNat : ℕ) : ℚ) = ((x.den : ℚ)) * ((y.num : ℤ) : ℚ) := by
    have h := Int.toNat_of_nonneg (le_of_lt hq)
    exact_mod_cast congrArg (fun z : ℤ => (z : ℚ)) h
  have hfloor : ⌊x / y⌋ = (x.num * y.den) / ((x.den : ℤ) * y.num) := by
    have h1 : x / y = ((x.num * y.den : ℤ) : ℚ) / ((((x.den : ℤ) * y.num).toNat : ℕ) : ℚ) := by
      rw [htn]
      push_cast
      rw [div_eq_div_iff (ne_of_gt hy) (by positivity)]
      rw [hxx, hyy]
      ring
    rw [h1, Rat.floor_intCast_div_natCast, Int.toNat_of_nonneg (le_of_lt hq)]
  have hk : (x.num * y.den).fdiv ((x.den : ℤ) * y.num) = ⌊x / y⌋ := by
    rw [Int.fdiv_eq_ediv _ (le_of_lt hq), hfloor]
  unfold fmod
  rw [hk, Rat.mkRat_eq_div]
  push_cast
  rw [div_eq_iff (by positivity : ((x.den : ℚ)) * (y.den : ℚ) ≠ 0)]
  rw [hxx, hyy]
  ring

/-! ### Lemmas about the stable sort -/

theorem insertStable_perm {α : Type} (le : α → α → Bool) (a : α) :
    ∀ l : List α, List.Perm (insertStable le a l) (a :: l) := by
  intro l
  induction l with
  | nil => exact List.Perm.refl _
  | cons b l ih =>
    simp only [insertStable]
    split
    · exact List.Perm.refl _
    · exact (ih.cons b).trans (List.Perm.swap a b l)

theorem stableSort_perm {α : Type} (le : α → α → Bool) :
    ∀ l : List α, List.Perm (stableSort le l) l := by
  intro l
  induction l with
  | nil => exact List.Perm.refl _
  | cons a l ih =>
    exact (insertStable_perm le a (stableSort le l)).trans (ih.cons a)

theorem mem_stableSort {α : Type} {le : α → α → Bool} {a : α} {l : List α} :
    a ∈ stableSort le l ↔ a ∈ l :=
  (stableSort_perm le l).mem_iff

theorem mem_insertStable {α : Type} {le : α → α → Bool} {x a : α} {l : List α} :
    x ∈ insertStable le a l ↔ x = a ∨ x ∈ l := by
  rw [(insertStable_perm le a l).mem_iff, List.mem_cons]

theorem insertStable_pairwise {α : Type} {le : α → α → Bool}
    (htot : ∀ a b, le a b = true ∨ le b a = true)
    (htrans : ∀ a b c, le a b = true → le b c = true → le a c = true)
    (a : α) :
    ∀ l : List α, l.Pairwise (fun x y => le x y = true) →
      (insertStable le a l).Pairwise (fun x y => le x y = true) := by
  intro l
  induction l with
  | nil => intro _; simp [insertStable]
  | cons b l ih =>
    intro h
    rw [List.pairwise_cons] at h
    simp only [insertStable]
    split
    case isTrue hab =>
      rw [List.pairwise_cons]
      refine ⟨?_, List.pairwise_cons.mpr h⟩
      intro y hy
      rcases List.mem_cons.mp hy with rfl | hy'
      · exact hab
      · exact htrans a b y hab (h.1 y hy')
    case isFalse hab =>
      have hba : le b a = true := (htot a b).resolve_left hab
      rw [List.pairwise_cons]
      refine ⟨?_, ih h.2⟩
      intro y hy
      rcases mem_insertStable.mp hy with rfl | hy'
      · exact hba
      · exact h.1 y hy'

theorem stableSort_pairwise {α : Type} {le : α → α → Bool}
    (htot : ∀ a b, le a b = true ∨ le b a = true)
    (htrans : ∀ a b c, le a b = true → le b c = true → le a c = true) :
    ∀ l : List α, (stableSort le l).Pairwise (fun x y => le x y = true) := by
  intro l
  induction l with
  | nil => simp [stableSort]
  | cons a l ih => exact insertStable_pairwise htot htrans a _ ih

theorem stableSort_of_pairwise {α : Type} {le : α → α → Bool} :
    ∀ {l : List α}, l.Pairwise (fun x y => le x y = true) → stableSort le l = l := by
  intro l
  induction l with
  | nil => intro _; rfl
  | cons a l ih =>
    intro h
    rw [List.pairwise_cons] at h
    show insertStable le a (stableSort le l) = a :: l
    rw [ih h.2]
    cases l with
    | nil => rfl
    | cons b l' => simp [insertStable, h.1 b (by simp)]

/-! ### Lemmas about `mergeLoop` and `merge_adjacent` -/

theorem mergeLoop_head (tol : ℤ) :
    ∀ (ws : List SunWindow) (cur : SunWindow),
      ∃ e rest, mergeLoop tol cur ws = ⟨cur.start, e⟩ :: rest ∧ cur.end_ ≤ e := by
  intro ws
  induction ws with
  | nil => intro cur; exact ⟨cur.end_, [], rfl, le_refl _⟩
  | cons w ws ih =>
    intro cur
    simp only [mergeLoop]
    split
    · obtain ⟨e, rest, heq, hle⟩ := ih ⟨cur.start, max cur.end_ w.end_⟩
      exact ⟨e, rest, heq, le_trans (le_max_left _ _) hle⟩
    · exact ⟨cur.end_, _, rfl, le_refl _⟩

theorem mergeLoop_gap_chain (tol : ℤ) :
    ∀ (ws : List SunWindow) (cur : SunWindow),
      List.Chain' (sepGap tol) (mergeLoop tol cur ws) := by
  intro ws
  induction ws with
  | nil => intro cur; exact List.chain'_singleton cur
  | cons w ws ih =>
    intro cur
    simp only [mergeLoop]
    split
    case isTrue h => exact ih _
    case isFalse h =>
      obtain ⟨e, rest, heq, -⟩ := mergeLoop_head tol ws w
      rw [heq, List.chain'_cons]
      exact ⟨not_le.mp h, heq ▸ ih w⟩

theorem mergeLoop_wf (tol : ℤ) :
    ∀ (ws : List SunWindow) (cur : SunWindow),
      cur.start ≤ cur.end_ → (∀ w ∈ ws, w.start ≤ w.end_) →
      ∀ v ∈ mergeLoop tol cur ws, v.start ≤ v.end_ := by
  intro ws
  induction ws with
  | nil =>
    intro cur hcur _ v hv
    simp only [mergeLoop, List.mem_singleton] at hv
    exact hv ▸ hcur
  | cons w ws ih =>
    intro cur hcur hws v hv
    simp only [mergeLoop] at hv
    split at hv
    · exact ih ⟨cur.start, max cur.end_ w.end_⟩ (le_trans hcur (le_max_left _ _))
        (fun u hu => hws u (List.mem_cons_of_mem _ hu)) v hv
    · rcases List.mem_cons.mp hv with rfl | hv'
      · exact hcur
      · exact ih w (hws w (List.mem_cons_self _ _))
          (fun u hu => hws u (List.mem_cons_of_mem _ hu)) v hv'

theorem mergeLoop_start_lb (tol c : ℤ) :
    ∀ (ws : List SunWindow) (cur : SunWindow),
      c ≤ cur.start → (∀ w ∈ ws, c ≤ w.start) →
      ∀ v ∈ mergeLoop tol cur ws, c ≤ v.start := by
  intro ws
  induction ws with
  | nil =>
    intro cur hcur _ v hv
    simp only [mergeLoop, List.mem_singleton] at hv
    exact hv ▸ hcur
  | cons w ws ih =>
    intro cur hcur hws v hv
    simp only [mergeLoop] at hv
    split at hv
    · exact ih ⟨cur.start, max cur.end_ w.end_⟩ hcur
        (fun u hu => hws u (List.mem_cons_of_mem _ hu)) v hv
    · rcases List.mem_cons.mp hv with rfl | hv'
      · exact hcur
      · exact ih w (hws w (List.mem_cons_self _ _))
          (fun u hu => hws u (List.mem_cons_of_mem _ hu)) v hv'

theorem mergeLoop_starts_sorted (tol : ℤ) :
    ∀ (ws : List SunWindow) (cur : SunWindow),
      (∀ w ∈ ws, cur.start ≤ w.start) →
      ws.Pairwise (fun a b => a.start ≤ b.start) →
      (mergeLoop tol cur ws).Pairwise (fun a b => a.start ≤ b.start) := by
  intro ws
  induction ws with
  | nil => intro cur _ _; simp [mergeLoop]
  | cons w ws ih =>
    intro cur hmono hsort
    rw [List.pairwise_cons] at hsort
    simp only [mergeLoop]
    split
    · exact ih _ (fun u hu => hmono u (List.mem_cons_of_mem _ hu)) hsort.2
    · rw [List.pairwise_cons]
      refine ⟨?_, ih w hsort.1 hsort.2⟩
      intro v hv
      exact mergeLoop_start_lb tol cur.start ws w
        (hmono w (List.mem_cons_self _ _))
        (fun u hu => hmono u (List.mem_cons_of_mem _ hu)) v hv

theorem mergeLoop_of_separated (tol : ℤ) :
    ∀ (ws : List SunWindow) (cur : SunWindow),
      List.Chain' (sepGap tol) (cur :: ws) → mergeLoop tol cur ws = cur :: ws := by
  intro ws
  induction ws with
  | nil => intro cur _; rfl
  | cons w ws ih =>
    intro cur hchain
    rw [List.chain'_cons] at hchain
    simp only [mergeLoop]
    rw [if_neg (not_le.mpr hchain.1), ih w hchain.2]

theorem mergeLoop_covers (tol : ℤ) :
    ∀ (ws : List SunWindow) (cur : SunWindow),
      (∀ w ∈ ws, cur.start ≤ w.start) →
      ws.Pairwise (fun a b => a.start ≤ b.start) →
      ∀ w ∈ cur :: ws, ∃ v ∈ mergeLoop tol cur ws,
        v.start ≤ w.start ∧ w.end_ ≤ v.end_ := by
  intro ws
  induction ws with
  | nil =>
    intro cur _ _ w hw
    simp only [List.mem_singleton] at hw
    exact ⟨cur, by simp [mergeLoop], hw ▸ ⟨le_refl _, le_refl _⟩⟩
  | cons u ws ih =>
    intro cur hmono hsort w hw
    rw [List.pairwise_cons] at hsort
    simp only [mergeLoop]
    split
    case isTrue habs =>
      have ih' := ih ⟨cur.start, max cur.end_ u.end_⟩
        (fun x hx => hmono x (List.mem_cons_of_mem _ hx)) hsort.2
      rcases List.mem_cons.mp hw with rfl | hw'
      · obtain ⟨v, hv, h1, h2⟩ := ih' _ (List.mem_cons_self _ _)
        exact ⟨v, hv, h1, le_trans (le_max_left _ _) h2⟩
      rcases List.mem_cons.mp hw' with rfl | hw''
      · obtain ⟨v, hv, h1, h2⟩ := ih' _ (List.mem_cons_self _ _)
        exact ⟨v, hv, le_trans h1 (hmono w (List.mem_cons_self _ _)),
          le_trans (le_max_right _ _) h2⟩
      · exact ih' w (List.mem_cons_of_mem _ hw'')
    case isFalse hsplit =>
      rcases List.mem_cons.mp hw with rfl | hw'
      · exact ⟨w, List.mem_cons_self _ _, le_refl _, le_refl _⟩
      · obtain ⟨v, hv, h1, h2⟩ := ih u hsort.1 hsort.2 w hw'
        exact ⟨v, List.mem_cons_of_mem _ hv, h1, h2⟩

theorem startLE_total (a b : SunWindow) :
    decide (a.start ≤ b.start) = true ∨ decide (b.start ≤ a.start) = true := by
  rcases le_total a.start b.start with h | h
  · exact Or.inl (decide_eq_true h)
  · exact Or.inr (decide_eq_true h)

theorem startLE_trans (a b c : SunWindow)
    (h1 : decide (a.start ≤ b.start) = true)
    (h2 : decide (b.start ≤ c.start) = true) :
    decide (a.start ≤ c.start) = true :=
  decide_eq_true (le_trans (of_decide_eq_true h1) (of_decide_eq_true h2))

theorem merge_adjacent_gap_chain (W : List SunWindow) (step : ℤ) :
    List.Chain' (sepGap (minutes step)) (merge_adjacent W step) := by
  unfold merge_adjacent
  cases stableSort (fun a b => decide (a.start ≤ b.start)) W with
  | nil => exact List.chain'_nil
  | cons w ws => exact mergeLoop_gap_chain _ ws w

theorem merge_adjacent_wf (W : List SunWindow) (step : ℤ)
    (hW : ∀ w ∈ W, w.start ≤ w.end_) :
    ∀ v ∈ merge_adjacent W step, v.start ≤ v.end_ := by
  have hW' : ∀ w ∈ stableSort (fun a b => decide (a.start ≤ b.start)) W,
      w.start ≤ w.end_ := fun w hw => hW w (mem_stableSort.mp hw)
  unfold merge_adjacent
  cases h : stableSort (fun a b => decide (a.start ≤ b.start)) W with
  | nil => intro v hv; cases hv
  | cons w ws =>
    rw [h] at hW'
    exact mergeLoop_wf _ ws w (hW' w (List.mem_cons_self _ _))
      (fun u hu => hW' u (List.mem_cons_of_mem _ hu))

theorem merge_adjacent_starts_sorted (W : List SunWindow) (step : ℤ) :
    (merge_adjacent W step).Pairwise (fun a b => a.start ≤ b.start) := by
  have hs := stableSort_pairwise startLE_total startLE_trans W
  unfold merge_adjacent
  cases h : stableSort (fun a b => decide (a.start ≤ b.start)) W with
  | nil => exact List.Pairwise.nil
  | cons w ws =>
    rw [h, List.pairwise_cons] at hs
    exact mergeLoop_starts_sorted _ ws w
      (fun u hu => of_decide_eq_true (hs.1 u hu))
      (hs.2.imp fun hab => of_decide_eq_true hab)

theorem merge_adjacent_covers (W : List SunWindow) (step : ℤ) :
    ∀ w ∈ W, ∃ v ∈ merge_adjacent W step, v.start ≤ w.start ∧ w.end_ ≤ v.end_ := by
  intro w hw
  have hs := stableSort_pairwise startLE_total startLE_trans W
  have hw' : w ∈ stableSort (fun a b => decide (a.start ≤ b.start)) W :=
    mem_stableSort.mpr hw
  unfold merge_adjacent
  cases h : stableSort (fun a b => decide (a.start ≤ b.start)) W with
  | nil => rw [h] at hw'; cases hw'
  | cons c cs =>
    rw [h, List.pairwise_cons] at hs
    rw [h] at hw'
    exact mergeLoop_covers _ cs c
      (fun u hu => of_decide_eq_true (hs.1 u hu))
      (hs.2.imp fun hab => of_decide_eq_true hab) w hw'

theorem chain_gap_pairwise {tol : ℤ} (htol : 0 ≤ tol) :
    ∀ L : List SunWindow, (∀ v ∈ L, v.start ≤ v.end_) →
      List.Chain' (sepGap tol) L → L.Pairwise (sepGap tol) := by
  intro L
  induction L with
  | nil => intro _ _; exact List.Pairwise.nil
  | cons a L ih =>
    intro hwf hchain
    have hPL : L.Pairwise (sepGap tol) :=
      ih (fun v hv => hwf v (List.mem_cons_of_mem _ hv)) hchain.tail
    rw [List.pairwise_cons]
    refine ⟨?_, hPL⟩
    intro b hb
    cases L with
    | nil => cases hb
    | cons c L' =>
      have hac : sepGap tol a c := (List.chain'_cons.mp hchain).1
      rcases List.mem_cons.mp hb with rfl | hb'
      · exact hac
      · have hcb : sepGap tol c b := (List.pairwise_cons.mp hPL).1 b hb'
        have hcwf : c.start ≤ c.end_ := hwf c (List.mem_cons_of_mem _ (List.mem_cons_self _ _))
        simp only [sepGap] at hac hcb ⊢
        omega

theorem pairwise_wellSeparated {tol : ℤ} (htol : 0 < tol)
    (L : List SunWindow) (hwf : ∀ v ∈ L, v.start ≤ v.end_)
    (hchain : List.Chain' (sepGap tol) L) :
    L.Pairwise (wellSeparated tol) := by
  refine (chain_gap_pairwise (le_of_lt htol) L hwf hchain).imp_of_mem ?_
  intro a b ha _ hsep
  have haf : a.start ≤ a.end_ := hwf a ha
  simp only [sepGap, wellSeparated] at hsep ⊢
  omega

/-! ### Well-formedness of the scanner and intersector outputs -/

theorem minutes_pos {m : ℤ} (h : 0 < m) : 0 < minutes m := by
  have h' : (0 : ℤ) < usPerMinute := by norm_num [usPerMinute]
  simpa [minutes] using mul_pos h h'

theorem collectOverlaps_wf (W : List SunWindow) (A : List (ℤ × ℤ)) :
    ∀ v ∈ collectOverlaps W A, v.start ≤ v.end_ := by
  intro v hv
  simp only [collectOverlaps, List.mem_flatMap, List.mem_filterMap] at hv
  obtain ⟨w, -, a, -, ha⟩ := hv
  split at ha
  case isTrue h =>
    cases ha
    exact le_of_lt h
  case isFalse h => cases ha

theorem scanLoop_wf (good : ℤ → Bool) (endT : ℤ) :
    ∀ (ts : List ℤ) (cur : Option ℤ) (acc : List SunWindow),
      (∀ w ∈ acc, w.start ≤ w.end_) →
      (∀ s, cur = some s → (∀ t ∈ ts, s ≤ t) ∧ s ≤ endT) →
      ts.Pairwise (· ≤ ·) →
      (∀ t ∈ ts, t ≤ endT) →
      ∀ w ∈ scanLoop good endT ts cur acc, w.start ≤ w.end_ := by
  intro ts
  induction ts with
  | nil =>
    intro cur acc hacc hcur _ _ w hw
    cases cur with
    | none => exact hacc w hw
    | some s =>
      simp only [scanLoop] at hw
      rcases List.mem_append.mp hw with h | h
      · exact hacc w h
      · rw [List.mem_singleton] at h
        subst h
        exact (hcur s rfl).2
  | cons t ts ih =>
    intro cur acc hacc hcur hsort hbound w hw
    rw [List.pairwise_cons] at hsort
    cases cur with
    | none =>
      simp only [scanLoop] at hw
      split at hw
      · exact ih (some t) acc hacc
          (fun s hs => by
            cases hs
            exact ⟨hsort.1, hbound t (List.mem_cons_self _ _)⟩)
          hsort.2 (fun u hu => hbound u (List.mem_cons_of_mem _ hu)) w hw
      · exact ih none acc hacc (fun s hs => by cases hs) hsort.2
          (fun u hu => hbound u (List.mem_cons_of_mem _ hu)) w hw
    | some s =>
      simp only [scanLoop] at hw
      split at hw
      · exact ih (some s) acc hacc
          (fun s' hs' => by
            cases hs'
            exact ⟨fun u hu => (hcur s rfl).1 u (List.mem_cons_of_mem _ hu),
              (hcur s rfl).2⟩)
          hsort.2 (fun u hu => hbound u (List.mem_cons_of_mem _ hu)) w hw
      · refine ih none (acc ++ [⟨s, t⟩]) ?_ (fun s' hs' => by cases hs') hsort.2
          (fun u hu => hbound u (List.mem_cons_of_mem _ hu)) w hw
        intro v hv
        rcases List.mem_append.mp hv with h | h
        · exact hacc v h
        · rw [List.mem_singleton] at h
          subst h
          exact (hcur s rfl).1 t (List.mem_cons_self _ _)

theorem sampleTimes_sorted (startT step : ℤ) (n : ℕ) (h : 0 ≤ step) :
    (sampleTimes startT step n).Pairwise (· ≤ ·) := by
  unfold sampleTimes
  refine List.Pairwise.map _ ?_ (List.pairwise_lt_range (n + 1))
  intro i j hij
  have h1 : (i : ℤ) ≤ (j : ℤ) := by exact_mod_cast le_of_lt hij
  have h2 := mul_le_mul_of_nonneg_left h1 h
  omega

theorem sampleTimes_le_endT (startT endT step : ℤ) (hstep : 0 < step)
    (hse : startT ≤ endT) :
    ∀ t ∈ sampleTimes startT step (numSteps startT endT step), t ≤ endT := by
  intro t ht
  simp only [sampleTimes, List.mem_map, List.mem_range] at ht
  obtain ⟨i, hi, rfl⟩ := ht
  have hin : i ≤ numSteps startT endT step := Nat.lt_succ_iff.mp hi
  have hq : numSteps startT endT step * step.toNat ≤ (endT - startT).toNat := by
    unfold numSteps
    exact Nat.div_mul_le_self _ _
  have hmul : step * (i : ℤ) ≤ step * ((numSteps startT endT step : ℕ) : ℤ) :=
    mul_le_mul_of_nonneg_left (by exact_mod_cast hin) (le_of_lt hstep)
  have hcast : ((numSteps startT endT step : ℕ) : ℤ) * ((step.toNat : ℕ) : ℤ) ≤
      (((endT - startT).toNat : ℕ) : ℤ) := by exact_mod_cast hq
  have h2 : ((step.toNat : ℕ) : ℤ) = step := Int.toNat_of_nonneg (le_of_lt hstep)
  have h3 : (((endT - startT).toNat : ℕ) : ℤ) = endT - startT :=
    Int.toNat_of_nonneg (by omega)
  rw [h2, h3, mul_comm] at hcast
  linarith

theorem sun_windows_for_day_wf (el az : ℤ → ℚ) (startT : ℤ)
    (ivs : List AzInterval) (minel : ℚ) (step_minutes : ℤ)
    (hstep : 0 < step_minutes) :
    ∀ v ∈ sun_windows_for_day el az startT ivs minel step_minutes,
      v.start ≤ v.end_ := by
  intro v hv
  have hstepus : 0 < minutes step_minutes := minutes_pos hstep
  have hday : startT ≤ startT + minutes 1440 := by
    have := minutes_pos (show (0 : ℤ) < 1440 by norm_num)
    omega
  simp only [sun_windows_for_day] at hv
  split at hv
  · cases hv
  · refine merge_adjacent_wf _ _ ?_ v hv
    intro w hw
    exact scanLoop_wf _ _ _ none [] (by simp) (fun s hs => by cases hs)
      (sampleTimes_sorted _ _ _ (le_of_lt hstepus))
      (sampleTimes_le_endT startT (startT + minutes 1440) (minutes step_minutes)
        hstepus hday) w hw

theorem sun_windows_for_day_gap_chain (el az : ℤ → ℚ) (startT : ℤ)
    (ivs : List AzInterval) (minel : ℚ) (step_minutes : ℤ) :
    List.Chain' (sepGap (minutes step_minutes))
      (sun_windows_for_day el az startT ivs minel step_minutes) := by
  unfold sun_windows_for_day
  split
  · exact List.chain'_nil
  · exact merge_adjacent_gap_chain _ _

/-! ### Claim theorems: C1, C3, C5, C6 -/

/-- C1 (status: code_bug).  The spec's scenario C demands that the explicit
full-circle interval `{start: 0, end: 360}` contain every angle, so that a
scan with it and `min_elevation_deg = -90` yields one window covering the
whole sampled day.  In the code, `_wrap_contains` normalises `end` with
`% 360.0`, collapsing the interval to the single point `0`: angle `5` is
rejected, and a day scan whose azimuth is `100` everywhere returns no
windows instead of the full-day window. -/
theorem C1_full_circle_interval_degenerates :
    _wrap_contains ⟨0, 360⟩ 5 = false ∧
    _wrap_contains ⟨0, 360⟩ 0 = true ∧
    sun_windows_for_day (fun _ => 0) (fun _ => 100) 0 [⟨0, 360⟩] (-90) 60 = [] := by
  decide

/-- C3 (counterexample).  Windows produced by a 10-minute scan, intersected
with allowed ranges, are re-merged with the fixed 5-minute
`MIN_STEP_MINUTES`, not with the 10-minute producing step: the two overlap
fragments 10 minutes apart stay separate, while merging with tolerance 10
(as the claim demands) would coalesce them. -/
theorem C3_fixed_tolerance_counterexample :
    sun_windows_for_day (fun t => if t ≤ minutes 20 then (10 : ℚ) else -10)
        (fun _ => 100) 0 [⟨0, 359⟩] 5 10 = [⟨0, minutes 30⟩] ∧
    intersect_with_allowed_hours [⟨0, minutes 30⟩]
        [(0, minutes 3), (minutes 13, minutes 30)] =
      [⟨0, minutes 3⟩, ⟨minutes 13, minutes 30⟩] ∧
    merge_adjacent
        (collectOverlaps [⟨0, minutes 30⟩] [(0, minutes 3), (minutes 13, minutes 30)])
        10 =
      [⟨0, minutes 30⟩] := by
  refine ⟨by decide, by decide, by decide⟩

/-- C3 (status: corrected; amended claim).  `intersect_with_allowed_hours`
re-merges the collected pairwise overlaps with the fixed tolerance
`MIN_STEP_MINUTES` (5 minutes), independent of the step that produced the
sun windows; consequently its output is separated by gaps strictly above
5 minutes (not necessarily above the producing step). -/
theorem C3_intersection_merges_with_fixed_tolerance
    (windows : List SunWindow) (allowed : List (ℤ × ℤ)) :
    intersect_with_allowed_hours windows allowed =
      merge_adjacent (collectOverlaps windows allowed) MIN_STEP_MINUTES ∧
    (intersect_with_allowed_hours windows allowed).Pairwise
      (wellSeparated (minutes MIN_STEP_MINUTES)) := by
  refine ⟨rfl, pairwise_wellSeparated ?_ _
    (merge_adjacent_wf _ _ (collectOverlaps_wf windows allowed))
    (merge_adjacent_gap_chain _ _)⟩
  exact minutes_pos (by norm_num [MIN_STEP_MINUTES])

/-- C5 (status: confirmed).  Every list returned by the engine —
`merge_adjacent` on well-formed windows, `sun_windows_for_day`, and
`intersect_with_allowed_hours` — is pairwise sorted ascending by start,
non-overlapping, and separated by gaps strictly greater than the merge
tolerance used (the sampling step for the first two, `MIN_STEP_MINUTES`
for the intersector). -/
theorem C5_engine_output_invariant
    (W : List SunWindow) (step : ℤ) (allowed : List (ℤ × ℤ))
    (el az : ℤ → ℚ) (startT : ℤ) (ivs : List AzInterval) (minel : ℚ)
    (hstep : 0 < step) (hW : ∀ w ∈ W, w.start ≤ w.end_) :
    (merge_adjacent W step).Pairwise (wellSeparated (minutes step)) ∧
    (sun_windows_for_day el az startT ivs minel step).Pairwise
      (wellSeparated (minutes step)) ∧
    (intersect_with_allowed_hours W allowed).Pairwise
      (wellSeparated (minutes MIN_STEP_MINUTES)) := by
  have hstepus : 0 < minutes step := minutes_pos hstep
  refine ⟨?_, ?_, ?_⟩
  · exact pairwise_wellSeparated hstepus _ (merge_adjacent_wf W step hW)
      (merge_adjacent_gap_chain W step)
  · exact pairwise_wellSeparated hstepus _
      (sun_windows_for_day_wf el az startT ivs minel step hstep)
      (sun_windows_for_day_gap_chain el az startT ivs minel step)
  · exact pairwise_wellSeparated (minutes_pos (by norm_num [MIN_STEP_MINUTES]))
      (merge_adjacent (collectOverlaps W allowed) MIN_STEP_MINUTES)
      (merge_adjacent_wf _ _ (collectOverlaps_wf W allowed))
      (merge_adjacent_gap_chain _ _)

/-- Witness for C5 at concrete inputs. -/
theorem C5_engine_output_invariant_witness :
    (0 : ℤ) < 5 ∧ (∀ w ∈ [(⟨0, minutes 10⟩ : SunWindow)], w.start ≤ w.end_) ∧
    ((merge_adjacent [(⟨0, minutes 10⟩ : SunWindow)] 5).Pairwise
        (wellSeparated (minutes 5)) ∧
      (sun_windows_for_day (fun _ => 0) (fun _ => 100) 0 [⟨0, 359⟩] (-90) 5).Pairwise
        (wellSeparated (minutes 5)) ∧
      (intersect_with_allowed_hours [(⟨0, minutes 10⟩ : SunWindow)]
          [(0, minutes 8)]).Pairwise
        (wellSeparated (minutes MIN_STEP_MINUTES))) :=
  ⟨by decide, by decide,
    C5_engine_output_invariant [(⟨0, minutes 10⟩ : SunWindow)] 5 [(0, minutes 8)]
      (fun _ => 0) (fun _ => 100) 0 [⟨0, 359⟩] (-90) (by decide) (by decide)⟩

/-- C6 (status: confirmed).  `merge_adjacent` is idempotent: re-merging its
output with the same `step_minutes` returns it unchanged. -/
theorem C6_merge_adjacent_idempotent (W : List SunWindow) (step_minutes : ℤ)
    (hW : ∀ w ∈ W, w.start < w.end_) :
    merge_adjacent (merge_adjacent W step_minutes) step_minutes =
      merge_adjacent W step_minutes := by
  have hsorted : (merge_adjacent W step_minutes).Pairwise
      (fun a b => (decide (a.start ≤ b.start)) = true) :=
    (merge_adjacent_starts_sorted W step_minutes).imp fun h => decide_eq_true h
  have hchain := merge_adjacent_gap_chain W step_minutes
  generalize hL : merge_adjacent W step_minutes = L at hsorted hchain ⊢
  unfold merge_adjacent
  rw [stableSort_of_pairwise hsorted]
  cases L with
  | nil => rfl
  | cons c cs => exact mergeLoop_of_separated _ cs c hchain

/-- Witness for C6 at concrete inputs. -/
theorem C6_merge_adjacent_idempotent_witness :
    (∀ w ∈ [(⟨0, minutes 7⟩ : SunWindow), ⟨minutes 30, minutes 40⟩],
      w.start < w.end_) ∧
    merge_adjacent
        (merge_adjacent [(⟨0, minutes 7⟩ : SunWindow), ⟨minutes 30, minutes 40⟩] 5) 5 =
      merge_adjacent [(⟨0, minutes 7⟩ : SunWindow), ⟨minutes 30, minutes 40⟩] 5 :=
  ⟨by decide,
    C6_merge_adjacent_idempotent [⟨0, minutes 7⟩, ⟨minutes 30, minutes 40⟩] 5
      (by decide)⟩

/-! ### Claim theorems: C9, C10 -/

/-- C9 (counterexample).  A spot with `camera_azimuth = 0.0` and the
non-empty direction list `[FRONT_LEFT]` does have `save()` leave
`desired_azimuth_ranges` unchanged, but `compute_azimuth_ranges` returns
`[]` for it (not non-empty intervals, as the claim asserts for every such
spot): `front left` is absent from the direction-to-centre mapping. -/
theorem C9_front_left_only_counterexample :
    Spot.save ⟨1, some 0, [.FRONT_LEFT], [⟨10, 20⟩], 5, 0⟩ =
      ⟨1, some 0, [.FRONT_LEFT], [⟨10, 20⟩], 5, 0⟩ ∧
    ([SunlightDirection.FRONT_LEFT] ≠ ([] : List SunlightDirection)) ∧
    compute_azimuth_ranges ⟨1, some 0, [.FRONT_LEFT], [⟨10, 20⟩], 5, 0⟩ 30 = [] := by
  refine ⟨by decide, by decide, by decide⟩

/-- C9 (status: corrected; amended claim).  For every spot with
`camera_azimuth` exactly `0.0` and non-empty `desired_directions`, `save()`
leaves `desired_azimuth_ranges` unchanged (the guard tests Python truthiness
of `camera_azimuth`, and `0.0` is falsy), even though
`compute_azimuth_ranges` would return non-empty intervals whenever at least
one desired direction is among the four mapped ones
(front, side_left, side_right, back). -/
theorem C9_zero_azimuth_skips_recompute (s : Spot)
    (h0 : s.camera_azimuth = some 0) (hdir : s.desired_directions ≠ []) :
    Spot.save s = s ∧
    ((∃ dir ∈ s.desired_directions,
        dir = SunlightDirection.FRONT ∨ dir = SunlightDirection.SIDE_LEFT ∨
          dir = SunlightDirection.SIDE_RIGHT ∨ dir = SunlightDirection.BACK) →
      compute_azimuth_ranges s 30 ≠ []) := by
  constructor
  · simp [Spot.save, h0, pyTruthy]
  · rintro ⟨dir, hmem, hdir4⟩
    simp only [compute_azimuth_ranges, h0]
    rw [if_neg (fun h => hdir (List.isEmpty_iff.mp h))]
    intro hempty
    have hnone := (List.filterMap_eq_nil_iff.mp hempty) dir hmem
    rcases hdir4 with rfl | rfl | rfl | rfl <;> simp [directionCenter] at hnone

/-- Witness for C9 at a concrete spot. -/
theorem C9_zero_azimuth_skips_recompute_witness :
    ((⟨1, some 0, [.FRONT], [], 5, 0⟩ : Spot).camera_azimuth = some 0) ∧
    ((⟨1, some 0, [.FRONT], [], 5, 0⟩ : Spot).desired_directions ≠ []) ∧
    (Spot.save ⟨1, some 0, [.FRONT], [], 5, 0⟩ = ⟨1, some 0, [.FRONT], [], 5, 0⟩ ∧
      ((∃ dir ∈ (⟨1, some 0, [.FRONT], [], 5, 0⟩ : Spot).desired_directions,
          dir = SunlightDirection.FRONT ∨ dir = SunlightDirection.SIDE_LEFT ∨
            dir = SunlightDirection.SIDE_RIGHT ∨ dir = SunlightDirection.BACK) →
        compute_azimuth_ranges ⟨1, some 0, [.FRONT], [], 5, 0⟩ 30 ≠ [])) :=
  ⟨rfl, by decide, C9_zero_azimuth_skips_recompute _ rfl (by decide)⟩

theorem hourlyLoop_empty_desired (codes : List ℤ) :
    ∀ (ts : List ℤ) (i : ℕ) (s : ℤ) (out : List (ℤ × ℤ)),
      i + ts.length ≤ codes.length →
      hourlyLoop codes [] ts i (some s) out = some (out, some s) := by
  intro ts
  induction ts with
  | nil => intro i s out _; rfl
  | cons t ts ih =>
    intro i s out hidx
    have hi : i < codes.length := by
      simp only [List.length_cons] at hidx
      omega
    simp only [hourlyLoop, List.getElem?_eq_getElem hi, List.isEmpty_nil,
      List.contains_nil, Bool.true_or]
    exact ih (i + 1) s out (by simp only [List.length_cons] at hidx; omega)

/-- C10 (status: confirmed).  For a non-empty hourly forecast with equally
long time and code lists, `hourly_allowed_ranges` with an empty desired set
returns exactly one range, from the first forecast hour to the last forecast
hour plus one hour (an empty desired set allows every hour) — whereas in the
azimuth matcher an empty interval set matches nothing, so
`sun_windows_for_day` with no intervals returns no windows at all. -/
theorem C10_empty_desired_allows_whole_forecast
    (times codes : List ℤ) (hne : times ≠ [])
    (hlen : times.length = codes.length) :
    hourly_allowed_ranges times codes [] =
      some [(times.head hne, times.getLast hne + usPerHour)] ∧
    (∀ (el az : ℤ → ℚ) (startT : ℤ) (minel : ℚ) (step : ℤ),
      sun_windows_for_day el az startT [] minel step = []) := by
  constructor
  · cases times with
    | nil => exact absurd rfl hne
    | cons t ts =>
      cases codes with
      | nil => simp at hlen
      | cons c cs =>
        simp only [hourly_allowed_ranges, List.isEmpty_cons, Bool.or_self,
          Bool.false_eq_true, if_false, if_neg]
        have h0 : (0 : ℕ) < (c :: cs).length := by simp
        simp only [hourlyLoop, List.getElem?_eq_getElem h0, List.isEmpty_nil,
          List.contains_nil, Bool.true_or]
        rw [hourlyLoop_empty_desired (c :: cs) ts 1 t []
          (by simp only [List.length_cons] at hlen ⊢; omega)]
        rw [List.getLast?_eq_getLast (t :: ts) hne]
        simp
  · intro el az startT minel step
    simp [sun_windows_for_day]

/-- Witness for C10 at a concrete forecast. -/
theorem C10_empty_desired_allows_whole_forecast_witness :
    ([0, usPerHour] ≠ ([] : List ℤ)) ∧ ([0, usPerHour] : List ℤ).length = ([3, 61] : List ℤ).length ∧
    (hourly_allowed_ranges [0, usPerHour] [3, 61] [] =
        some [(([0, usPerHour] : List ℤ).head (by decide),
          ([0, usPerHour] : List ℤ).getLast (by decide) + usPerHour)] ∧
      (∀ (el az : ℤ → ℚ) (startT : ℤ) (minel : ℚ) (step : ℤ),
        sun_windows_for_day el az startT [] minel step = [])) :=
  ⟨by decide, by decide,
    C10_empty_desired_allows_whole_forecast [0, usPerHour] [3, 61] (by decide) (by decide)⟩

/-! ### Claim theorems: C8 (cache discipline) -/

theorem keyMatch_iff {e : SunWindowCache} {sid : ℕ} {d : ℤ} :
    keyMatch e sid d = true ↔ e.spot = sid ∧ e.for_date = d := by
  simp [keyMatch]

theorem countKey_cons (e : SunWindowCache) (rest : List SunWindowCache)
    (sid : ℕ) (d : ℤ) :
    countKey (e :: rest) sid d =
      (if keyMatch e sid d = true then 1 else 0) + countKey rest sid d := by
  simp only [countKey, List.filter_cons]
  split
  · rw [List.length_cons]
    omega
  · omega

theorem countKey_update_or_create (sid : ℕ) (d : ℤ) (ws : List SunWindow)
    (now : ℤ) (sid' : ℕ) (d' : ℤ) :
    ∀ store : List SunWindowCache,
      countKey (update_or_create store sid d ws now) sid' d' =
        if sid = sid' ∧ d = d' then max (countKey store sid' d') 1
        else countKey store sid' d' := by
  intro store
  induction store with
  | nil =>
    simp only [update_or_create]
    rw [countKey_cons]
    by_cases hk : sid = sid' ∧ d = d'
    · have hm : keyMatch ⟨sid, d, ws, now⟩ sid' d' = true :=
        keyMatch_iff.mpr ⟨hk.1, hk.2⟩
      rw [if_pos hm, if_pos hk]
      simp [countKey]
    · have hm : ¬keyMatch ⟨sid, d, ws, now⟩ sid' d' = true := fun h =>
        hk ⟨(keyMatch_iff.mp h).1, (keyMatch_iff.mp h).2⟩
      rw [if_neg hm, if_neg hk]
      simp [countKey]
  | cons e rest ih =>
    simp only [update_or_create]
    by_cases hm : keyMatch e sid d = true
    · rw [if_pos hm]
      rw [countKey_cons, countKey_cons]
      have hsame : keyMatch { e with windows := ws } sid' d' = keyMatch e sid' d' := rfl
      rw [hsame]
      by_cases hk : sid = sid' ∧ d = d'
      · rw [if_pos hk]
        have he' : keyMatch e sid' d' = true := by
          obtain ⟨h1, h2⟩ := keyMatch_iff.mp hm
          exact keyMatch_iff.mpr ⟨h1.trans hk.1, h2.trans hk.2⟩
        rw [if_pos he']
        omega
      · rw [if_neg hk]
    · rw [if_neg hm]
      rw [countKey_cons, countKey_cons, ih]
      by_cases hk : sid = sid' ∧ d = d'
      · rw [if_pos hk, if_pos hk]
        have he' : ¬keyMatch e sid' d' = true := fun h => by
          obtain ⟨h1, h2⟩ := keyMatch_iff.mp h
          exact hm (keyMatch_iff.mpr ⟨h1.trans hk.1.symm, h2.trans hk.2.symm⟩)
        rw [if_neg he']
        omega
      · rw [if_neg hk, if_neg hk]

theorem update_or_create_keyUnique {store : List SunWindowCache}
    (h : keyUnique store) (sid : ℕ) (d : ℤ) (ws : List SunWindow) (now : ℤ) :
    keyUnique (update_or_create store sid d ws now) := by
  intro sid' d'
  rw [countKey_update_or_create]
  split
  · have := h sid' d'
    omega
  · exact h sid' d'

/-- C8 (status: confirmed).  The `windows` endpoint serves the cached
windows without recomputation exactly when a cache entry for
`(spot, date)` exists with `computed_at ≥ spot.updated_at` (then the store
is untouched); otherwise it recomputes `sun_windows_for_day` and stores the
result through the upsert, which keeps at most one entry per
`(spot, date)` key. -/
theorem C8_cache_freshness_and_upsert
    (el az : ℤ → ℚ) (startT d now : ℤ) (store : List SunWindowCache)
    (spot : Spot) (huniq : keyUnique store) :
    ((windowsView el az startT d now store spot).1.recomputed = false ↔
      ∃ c, cacheFind store spot.id d = some c ∧ spot.updated_at ≤ c.computed_at) ∧
    ((windowsView el az startT d now store spot).1.recomputed = false →
      (windowsView el az startT d now store spot).2 = store ∧
      ∃ c, cacheFind store spot.id d = some c ∧
        (windowsView el az startT d now store spot).1.windows = c.windows) ∧
    ((windowsView el az startT d now store spot).1.recomputed = true →
      (windowsView el az startT d now store spot).1.windows =
        sun_windows_for_day el az startT spot.desired_azimuth_ranges
          spot.min_sun_elevation MIN_STEP_MINUTES ∧
      (windowsView el az startT d now store spot).2 =
        update_or_create store spot.id d
          (sun_windows_for_day el az startT spot.desired_azimuth_ranges
            spot.min_sun_elevation MIN_STEP_MINUTES) now) ∧
    keyUnique (windowsView el az startT d now store spot).2 := by
  cases hc : cacheFind store spot.id d with
  | none =>
    simp only [windowsView, hc]
    refine ⟨?_, ?_, fun _ => ⟨by trivial, by trivial⟩,
      update_or_create_keyUnique huniq _ _ _ _⟩
    · constructor
      · intro h
        simp at h
      · rintro ⟨c, hc', -⟩
        simp at hc'
    · intro h
      simp at h
  | some c =>
    by_cases hlt : spot.updated_at > c.computed_at
    · simp only [windowsView, hc, if_pos hlt]
      refine ⟨?_, ?_, fun _ => ⟨by trivial, by trivial⟩,
      update_or_create_keyUnique huniq _ _ _ _⟩
      · constructor
        · intro h
          simp at h
        · rintro ⟨c', hc', hle⟩
          rw [Option.some.injEq] at hc'
          subst hc'
          exact absurd hle (not_le.mpr hlt)
      · intro h
        simp at h
    · simp only [windowsView, hc, if_neg hlt]
      refine ⟨?_, fun _ => ⟨by trivial, c, by trivial, by trivial⟩, ?_, huniq⟩
      · exact ⟨fun _ => ⟨c, by trivial, not_lt.mp hlt⟩, fun _ => by trivial⟩
      · intro h
        simp at h

/-- Witness for C8 at a concrete store and spot. -/
theorem C8_cache_freshness_and_upsert_witness :
    keyUnique ([] : List SunWindowCache) ∧
    (((windowsView (fun _ => 0) (fun _ => 0) 0 0 7 [] ⟨1, none, [], [], 5, 3⟩).1.recomputed = false ↔
        ∃ c, cacheFind [] (1 : ℕ) 0 = some c ∧ (3 : ℤ) ≤ c.computed_at) ∧
      ((windowsView (fun _ => 0) (fun _ => 0) 0 0 7 [] ⟨1, none, [], [], 5, 3⟩).1.recomputed = false →
        (windowsView (fun _ => 0) (fun _ => 0) 0 0 7 [] ⟨1, none, [], [], 5, 3⟩).2 = [] ∧
        ∃ c, cacheFind [] (1 : ℕ) 0 = some c ∧
          (windowsView (fun _ => 0) (fun _ => 0) 0 0 7 [] ⟨1, none, [], [], 5, 3⟩).1.windows = c.windows) ∧
      ((windowsView (fun _ => 0) (fun _ => 0) 0 0 7 [] ⟨1, none, [], [], 5, 3⟩).1.recomputed = true →
        (windowsView (fun _ => 0) (fun _ => 0) 0 0 7 [] ⟨1, none, [], [], 5, 3⟩).1.windows =
          sun_windows_for_day (fun _ => 0) (fun _ => 0) 0 [] 5 MIN_STEP_MINUTES ∧
        (windowsView (fun _ => 0) (fun _ => 0) 0 0 7 [] ⟨1, none, [], [], 5, 3⟩).2 =
          update_or_create [] 1 0
            (sun_windows_for_day (fun _ => 0) (fun _ => 0) 0 [] 5 MIN_STEP_MINUTES) 7) ∧
      keyUnique (windowsView (fun _ => 0) (fun _ => 0) 0 0 7 [] ⟨1, none, [], [], 5, 3⟩).2) :=
  ⟨fun sid da => by simp [countKey],
    C8_cache_freshness_and_upsert (fun _ => 0) (fun _ => 0) 0 0 7 []
      ⟨1, none, [], [], 5, 3⟩ (fun sid da => by simp [countKey])⟩

/-! ### Claim theorems: C2, C4 (suggestion aggregator) -/

theorem processCandidate_distance {d now : ℤ} {store : List SunWindowCache}
    {c : Candidate} {s : Suggestion} {store' : List SunWindowCache}
    (h : processCandidate d now store c = .ok (some s, store')) :
    s.distance_m = c.distance := by
  unfold processCandidate at h
  cases hcs : cacheOrCompute d now store c with
  | error e =>
    rw [hcs] at h
    exact absurd h (by simp)
  | ok p =>
    obtain ⟨cw, st'⟩ := p
    rw [hcs] at h
    have h' : (if c.desired_weather.isEmpty then
        (if cw.isEmpty then
          (.ok (none, st') : Except String (Option Suggestion × List SunWindowCache))
         else .ok (some ⟨c.spot.id, c.distance, cw⟩, st'))
      else
        match c.weatherResult with
        | .error e => .error e
        | .ok allowed =>
          if allowed.isEmpty then .ok (none, st')
          else
            if (intersect_with_allowed_hours cw allowed).isEmpty then .ok (none, st')
            else .ok (some ⟨c.spot.id, c.distance,
              intersect_with_allowed_hours cw allowed⟩, st')) =
        .ok (some s, store') := h
    clear h
    by_cases hw : c.desired_weather.isEmpty = true
    · rw [if_pos hw] at h'
      by_cases hcw : cw.isEmpty = true
      · rw [if_pos hcw] at h'
        exact absurd h' (by simp)
      · rw [if_neg hcw] at h'
        simp only [Except.ok.injEq, Prod.mk.injEq, Option.some.injEq] at h'
        rw [← h'.1]
    · rw [if_neg hw] at h'
      cases hwr : c.weatherResult with
      | error e =>
        rw [hwr] at h'
        exact absurd h' (by simp)
      | ok allowed =>
        rw [hwr] at h'
        have h'' : (if allowed.isEmpty then
            (.ok (none, st') : Except String (Option Suggestion × List SunWindowCache))
          else
            if (intersect_with_allowed_hours cw allowed).isEmpty then .ok (none, st')
            else .ok (some ⟨c.spot.id, c.distance,
              intersect_with_allowed_hours cw allowed⟩, st')) =
            .ok (some s, store') := h'
        clear h'
        by_cases ha : allowed.isEmpty = true
        · rw [if_pos ha] at h''
          exact absurd h'' (by simp)
        · rw [if_neg ha] at h''
          by_cases hm : (intersect_with_allowed_hours cw allowed).isEmpty = true
          · rw [if_pos hm] at h''
            exact absurd h'' (by simp)
          · rw [if_neg hm] at h''
            simp only [Except.ok.injEq, Prod.mk.injEq, Option.some.injEq] at h''
            rw [← h''.1]

theorem suggestionsLoop_cons_error {d now : ℤ} {c : Candidate}
    {cs : List Candidate} {store : List SunWindowCache} {e : String}
    (hpc : processCandidate d now store c = .error e) :
    suggestionsLoop d now (c :: cs) store = .error e := by
  have hdef : suggestionsLoop d now (c :: cs) store =
      match processCandidate d now store c with
      | .error e => .error e
      | .ok (o, store') =>
        match suggestionsLoop d now cs store' with
        | .error e => .error e
        | .ok (rest, store'') => .ok (suggestionsStep o rest, store'') := rfl
  rw [hdef, hpc]

theorem suggestionsLoop_cons_ok {d now : ℤ} {c : Candidate}
    {cs : List Candidate} {store store' : List SunWindowCache}
    {o : Option Suggestion}
    (hpc : processCandidate d now store c = .ok (o, store')) :
    suggestionsLoop d now (c :: cs) store =
      match suggestionsLoop d now cs store' with
      | .error e => .error e
      | .ok (rest, store'') => .ok (suggestionsStep o rest, store'') := by
  have hdef : suggestionsLoop d now (c :: cs) store =
      match processCandidate d now store c with
      | .error e => .error e
      | .ok (o, store') =>
        match suggestionsLoop d now cs store' with
        | .error e => .error e
        | .ok (rest, store'') => .ok (suggestionsStep o rest, store'') := rfl
  rw [hdef, hpc]

theorem suggestionsLoop_sublist (d now : ℤ) :
    ∀ (cs : List Candidate) (store : List SunWindowCache)
      (res : List Suggestion) (store'' : List SunWindowCache),
      suggestionsLoop d now cs store = .ok (res, store'') →
      List.Sublist (res.map (fun s => s.distance_m))
        (cs.map (fun c => c.distance)) := by
  intro cs
  induction cs with
  | nil =>
    intro store res store'' h
    simp only [suggestionsLoop, Except.ok.injEq, Prod.mk.injEq] at h
    rw [← h.1]
    simp
  | cons c cs ih =>
    intro store res store'' h
    cases hpc : processCandidate d now store c with
    | error e =>
      rw [suggestionsLoop_cons_error hpc] at h
      exact absurd h (by simp)
    | ok p =>
      obtain ⟨o, store'⟩ := p
      rw [suggestionsLoop_cons_ok hpc] at h
      cases hsl : suggestionsLoop d now cs store' with
      | error e =>
        rw [hsl] at h
        exact absurd h (by simp)
      | ok q =>
        obtain ⟨rest, st''⟩ := q
        rw [hsl] at h
        have h2 : (Except.ok (suggestionsStep o rest, st'') :
            Except String (List Suggestion × List SunWindowCache)) =
            .ok (res, store'') := h
        simp only [Except.ok.injEq, Prod.mk.injEq] at h2
        obtain ⟨hres, -⟩ := h2
        cases o with
        | none =>
          rw [← hres]
          exact List.Sublist.cons _ (ih store' rest st'' hsl)
        | some s =>
          rw [← hres]
          show (List.map (fun s => s.distance_m) (suggestionsStep (some s) rest)).Sublist
            (List.map (fun c => c.distance) (c :: cs))
          simp only [suggestionsStep, List.map_cons]
          rw [processCandidate_distance hpc]
          exact List.Sublist.cons₂ _ (ih store' rest st'' hsl)

theorem suggestionsLoop_append_ok (d now : ℤ) :
    ∀ (cs₁ cs₂ : List Candidate) (store : List SunWindowCache)
      (res₁ : List Suggestion) (st₁ : List SunWindowCache),
      suggestionsLoop d now cs₁ store = .ok (res₁, st₁) →
      suggestionsLoop d now (cs₁ ++ cs₂) store =
        match suggestionsLoop d now cs₂ st₁ with
        | .error e => .error e
        | .ok (r2, st2) => .ok (res₁ ++ r2, st2) := by
  intro cs₁
  induction cs₁ with
  | nil =>
    intro cs₂ store res₁ st₁ h
    simp only [suggestionsLoop, Except.ok.injEq, Prod.mk.injEq] at h
    obtain ⟨hres, hst⟩ := h
    subst hres
    subst hst
    simp only [List.nil_append]
    cases hsl2 : suggestionsLoop d now cs₂ store with
    | error e => rfl
    | ok q =>
      obtain ⟨r2, st2⟩ := q
      simp
  | cons c cs ih =>
    intro cs₂ store res₁ st₁ h
    cases hpc : processCandidate d now store c with
    | error e =>
      rw [suggestionsLoop_cons_error hpc] at h
      exact absurd h (by simp)
    | ok p =>
      obtain ⟨o, store'⟩ := p
      rw [suggestionsLoop_cons_ok hpc] at h
      cases hsl : suggestionsLoop d now cs store' with
      | error e =>
        rw [hsl] at h
        exact absurd h (by simp)
      | ok q =>
        obtain ⟨rest, st''⟩ := q
        rw [hsl] at h
        have h2 : (Except.ok (suggestionsStep o rest, st'') :
            Except String (List Suggestion × List SunWindowCache)) =
            .ok (res₁, st₁) := h
        simp only [Except.ok.injEq, Prod.mk.injEq] at h2
        obtain ⟨hres, hst⟩ := h2
        rw [List.cons_append, suggestionsLoop_cons_ok hpc, ih cs₂ store' rest st'' hsl]
        rw [← hres, ← hst]
        cases hsl2 : suggestionsLoop d now cs₂ st'' with
        | error e => rfl
        | ok q2 =>
          obtain ⟨r2, st2⟩ := q2
          cases o <;> simp [suggestionsStep]

theorem distLE_total (a b : Candidate) :
    decide (a.distance ≤ b.distance) = true ∨
      decide (b.distance ≤ a.distance) = true := by
  rcases le_total a.distance b.distance with h | h
  · exact Or.inl (decide_eq_true h)
  · exact Or.inr (decide_eq_true h)

theorem distLE_trans (a b c : Candidate)
    (h1 : decide (a.distance ≤ b.distance) = true)
    (h2 : decide (b.distance ≤ c.distance) = true) :
    decide (a.distance ≤ c.distance) = true :=
  decide_eq_true (le_trans (of_decide_eq_true h1) (of_decide_eq_true h2))

theorem suggestionsLoop_sorted (d now : ℤ) (qs : List Candidate)
    (store : List SunWindowCache) (res : List Suggestion)
    (store' : List SunWindowCache)
    (hqs : qs.Pairwise (fun a b => a.distance ≤ b.distance))
    (h : suggestionsLoop d now qs store = .ok (res, store')) :
    res.Pairwise (fun a b => a.distance_m ≤ b.distance_m) := by
  have hsub := suggestionsLoop_sublist d now qs store res store' h
  have h1 : (qs.map (fun c => c.distance)).Pairwise (fun a b => a ≤ b) :=
    List.pairwise_map.mpr hqs
  exact List.pairwise_map.mp (List.Pairwise.sublist hsub h1)

/-- C2 (counterexample).  A run over eleven surviving candidates returns
eleven suggestions: the code never truncates the result list to 10. -/
theorem C2_no_truncation_counterexample :
    (SuggestionsAPI_get 0 0 0 elevenCandidates []).map
      (fun p => p.1.length) = .ok 11 := by
  rfl

/-- C2 (status: corrected; amended claim).  Every successful suggestions
response lists its suggestions in ascending order of distance from the user
position (the queryset order), but no truncation is applied: the response
contains one suggestion per surviving candidate, however many. -/
theorem C2_suggestions_sorted_by_distance (d now : ℤ) (radius_km : ℚ)
    (cands : List Candidate) (store : List SunWindowCache)
    (res : List Suggestion) (store' : List SunWindowCache)
    (h : SuggestionsAPI_get d now radius_km cands store = .ok (res, store')) :
    res.Pairwise (fun a b => a.distance_m ≤ b.distance_m) := by
  simp only [SuggestionsAPI_get] at h
  refine suggestionsLoop_sorted d now _ store res store' ?_ h
  have hsorted : (stableSort (fun a b => decide (a.distance ≤ b.distance))
      (cands.filter fun c => c.hasLocation)).Pairwise
      (fun a b => a.distance ≤ b.distance) :=
    (stableSort_pairwise distLE_total distLE_trans _).imp
      fun hab => of_decide_eq_true hab
  split
  · exact hsorted.filter _
  · exact hsorted

/-- Witness for C2 at a concrete run. -/
theorem C2_suggestions_sorted_by_distance_witness :
    SuggestionsAPI_get 0 0 0 [sampleCandidate 0] [] =
      .ok ([⟨0, 0, [⟨0, minutes 10⟩]⟩], [⟨0, 0, [⟨0, minutes 10⟩], 0⟩]) ∧
    ([(⟨0, 0, [⟨0, minutes 10⟩]⟩ : Suggestion)]).Pairwise
      (fun a b => a.distance_m ≤ b.distance_m) :=
  ⟨by rfl,
    C2_suggestions_sorted_by_distance 0 0 0 [sampleCandidate 0] []
      [⟨0, 0, [⟨0, minutes 10⟩]⟩] [⟨0, 0, [⟨0, minutes 10⟩], 0⟩] (by rfl)⟩

/-- C4 (counterexample).  A suggestion run over two candidates, where the
nearer one succeeds and the farther one's weather collaborator raises,
fails as a whole with that error — it does not skip the failing candidate
and return the surviving suggestion. -/
theorem C4_failure_aborts_run_counterexample :
    SuggestionsAPI_get 0 0 0 [badCandidate, sampleCandidate 0] [] =
      .error "weather provider down" := by
  rfl

/-- C4 (status: corrected; amended claim).  There is no `try/except` in the
per-candidate loop: if the candidates processed so far succeeded and the
next candidate's processing raises, the exception propagates and the whole
suggestion run fails with it, discarding the earlier candidates' results. -/
theorem C4_collaborator_failure_propagates (d now : ℤ)
    (store st₁ : List SunWindowCache) (cs₁ cs₂ : List Candidate)
    (c : Candidate) (res₁ : List Suggestion) (e : String)
    (h1 : suggestionsLoop d now cs₁ store = .ok (res₁, st₁))
    (h2 : processCandidate d now st₁ c = .error e) :
    suggestionsLoop d now (cs₁ ++ c :: cs₂) store = .error e := by
  rw [suggestionsLoop_append_ok d now cs₁ (c :: cs₂) store res₁ st₁ h1]
  rw [suggestionsLoop_cons_error h2]

/-- Witness for C4 at a concrete run. -/
theorem C4_collaborator_failure_propagates_witness :
    suggestionsLoop 0 0 [sampleCandidate 0] [] =
      .ok ([⟨0, 0, [⟨0, minutes 10⟩]⟩], [⟨0, 0, [⟨0, minutes 10⟩], 0⟩]) ∧
    processCandidate 0 0 [⟨0, 0, [⟨0, minutes 10⟩], 0⟩] badCandidate =
      .error "weather provider down" ∧
    suggestionsLoop 0 0 ([sampleCandidate 0] ++ badCandidate :: []) [] =
      .error "weather provider down" :=
  ⟨by rfl, by rfl,
    C4_collaborator_failure_propagates 0 0 [] [⟨0, 0, [⟨0, minutes 10⟩], 0⟩]
      [sampleCandidate 0] [] badCandidate [⟨0, 0, [⟨0, minutes 10⟩]⟩]
      "weather provider down" (by rfl) (by rfl)⟩

/-! ### Claim C7: scanner antitone in the elevation threshold -/

theorem scanLoop_cons_open {g : ℤ → Bool} {endT t : ℤ} {ts : List ℤ}
    {acc : List SunWindow} (h : g t = true) :
    scanLoop g endT (t :: ts) none acc = scanLoop g endT ts (some t) acc := by
  simp [scanLoop, h]

theorem scanLoop_cons_stayoff {g : ℤ → Bool} {endT t : ℤ} {ts : List ℤ}
    {acc : List SunWindow} (h : g t = false) :
    scanLoop g endT (t :: ts) none acc = scanLoop g endT ts none acc := by
  simp [scanLoop, h]

theorem scanLoop_cons_stayon {g : ℤ → Bool} {endT t s : ℤ} {ts : List ℤ}
    {acc : List SunWindow} (h : g t = true) :
    scanLoop g endT (t :: ts) (some s) acc = scanLoop g endT ts (some s) acc := by
  simp [scanLoop, h]

theorem scanLoop_cons_close {g : ℤ → Bool} {endT t s : ℤ} {ts : List ℤ}
    {acc : List SunWindow} (h : g t = false) :
    scanLoop g endT (t :: ts) (some s) acc =
      scanLoop g endT ts none (acc ++ [⟨s, t⟩]) := by
  simp [scanLoop, h]

theorem scanLoop_mem_acc (g : ℤ → Bool) (endT : ℤ) :
    ∀ (ts : List ℤ) (cur : Option ℤ) (acc : List SunWindow) (w : SunWindow),
      w ∈ acc → w ∈ scanLoop g endT ts cur acc := by
  intro ts
  induction ts with
  | nil =>
    intro cur acc w hw
    cases cur with
    | none => exact hw
    | some s =>
      simp only [scanLoop]
      exact List.mem_append_left _ hw
  | cons t ts ih =>
    intro cur acc w hw
    cases cur with
    | none =>
      cases hg : g t with
      | true => rw [scanLoop_cons_open hg]; exact ih _ _ w hw
      | false => rw [scanLoop_cons_stayoff hg]; exact ih _ _ w hw
    | some s =>
      cases hg : g t with
      | true => rw [scanLoop_cons_stayon hg]; exact ih _ _ w hw
      | false =>
        rw [scanLoop_cons_close hg]
        exact ih _ _ w (List.mem_append_left _ hw)

/-- Simulation between two edge-detection scans: when the good-predicate of
the second scan implies that of the first, every window emitted by the
second scan is contained in a window emitted by the first. -/
theorem scanLoop_mono (g₂ g₁ : ℤ → Bool) (endT : ℤ) :
    ∀ (ts : List ℤ) (cur₂ cur₁ : Option ℤ) (acc₂ acc₁ : List SunWindow),
      (∀ t ∈ ts, g₂ t = true → g₁ t = true) →
      ts.Pairwise (· ≤ ·) →
      (∀ t ∈ ts, t ≤ endT) →
      (∀ s₂, cur₂ = some s₂ → ∃ s₁, cur₁ = some s₁ ∧ s₁ ≤ s₂) →
      (∀ s₁, cur₁ = some s₁ → ∀ t ∈ ts, s₁ ≤ t) →
      (∀ w ∈ acc₂,
        (∃ u ∈ acc₁, u.start ≤ w.start ∧ w.end_ ≤ u.end_) ∨
        (∃ s₁, cur₁ = some s₁ ∧ s₁ ≤ w.start ∧ (∀ t ∈ ts, w.end_ ≤ t) ∧
          w.end_ ≤ endT)) →
      ∀ w ∈ scanLoop g₂ endT ts cur₂ acc₂,
        ∃ u ∈ scanLoop g₁ endT ts cur₁ acc₁,
          u.start ≤ w.start ∧ w.end_ ≤ u.end_ := by
  intro ts
  induction ts with
  | nil =>
    intro cur₂ cur₁ acc₂ acc₁ himp hsort hbound hcur hcur1b hacc w hw
    cases cur₂ with
    | none =>
      rcases hacc w hw with ⟨u, hu, h1, h2⟩ | ⟨s₁, hc1, h1, -, h3⟩
      · exact ⟨u, scanLoop_mem_acc g₁ endT [] cur₁ acc₁ u hu, h1, h2⟩
      · rw [hc1]
        refine ⟨⟨s₁, endT⟩, ?_, h1, h3⟩
        simp only [scanLoop]
        exact List.mem_append_right _ (by simp)
    | some s₂ =>
      obtain ⟨s₁, hc1, hs12⟩ := hcur s₂ rfl
      rw [hc1]
      simp only [scanLoop] at hw ⊢
      rcases List.mem_append.mp hw with hw' | hw'
      · rcases hacc w hw' with ⟨u, hu, h1, h2⟩ | ⟨s₁', hc1', h1, -, h3⟩
        · exact ⟨u, List.mem_append_left _ hu, h1, h2⟩
        · rw [hc1] at hc1'
          cases hc1'
          exact ⟨⟨s₁, endT⟩, List.mem_append_right _ (by simp), h1, h3⟩
      · rw [List.mem_singleton] at hw'
        subst hw'
        exact ⟨⟨s₁, endT⟩, List.mem_append_right _ (by simp), hs12, le_refl _⟩
  | cons t ts ih =>
    intro cur₂ cur₁ acc₂ acc₁ himp hsort hbound hcur hcur1b hacc w hw
    rw [List.pairwise_cons] at hsort
    have himp_tail : ∀ t' ∈ ts, g₂ t' = true → g₁ t' = true :=
      fun t' ht' => himp t' (List.mem_cons_of_mem _ ht')
    have hbound_head : t ≤ endT := hbound t (List.mem_cons_self _ _)
    have hbound_tail : ∀ t' ∈ ts, t' ≤ endT :=
      fun t' ht' => hbound t' (List.mem_cons_of_mem _ ht')
    cases hg2 : g₂ t with
    | true =>
      have hg1 : g₁ t = true := himp t (List.mem_cons_self _ _) hg2
      cases cur₂ with
      | none =>
        rw [scanLoop_cons_open hg2] at hw
        cases hc1 : cur₁ with
        | none =>
          rw [scanLoop_cons_open hg1]
          refine ih (some t) (some t) acc₂ acc₁ himp_tail hsort.2 hbound_tail
            ?_ ?_ ?_ w hw
          · rintro s₂ hs
            cases hs
            exact ⟨t, rfl, le_refl t⟩
          · rintro s₁ hs
            cases hs
            exact hsort.1
          · intro w' hw'
            rcases hacc w' hw' with h | ⟨s₁, hcc, -⟩
            · exact Or.inl h
            · rw [hc1] at hcc
              cases hcc
        | some s₁ =>
          rw [scanLoop_cons_stayon hg1]
          refine ih (some t) (some s₁) acc₂ acc₁ himp_tail hsort.2 hbound_tail
            ?_ ?_ ?_ w hw
          · rintro s₂ hs
            cases hs
            exact ⟨s₁, rfl, hcur1b s₁ hc1 t (List.mem_cons_self _ _)⟩
          · rintro s₁' hs
            cases hs
            exact fun t' ht' => hcur1b s₁ hc1 t' (List.mem_cons_of_mem _ ht')
          · intro w' hw'
            rcases hacc w' hw' with h | ⟨s₁', hcc, h1, h2, h3⟩
            · exact Or.inl h
            · rw [hc1] at hcc
              cases hcc
              exact Or.inr ⟨s₁, rfl, h1,
                fun t' ht' => h2 t' (List.mem_cons_of_mem _ ht'), h3⟩
      | some s₂ =>
        obtain ⟨s₁, hc1, hs12⟩ := hcur s₂ rfl
        rw [scanLoop_cons_stayon hg2] at hw
        rw [hc1, scanLoop_cons_stayon hg1]
        refine ih (some s₂) (some s₁) acc₂ acc₁ himp_tail hsort.2 hbound_tail
          ?_ ?_ ?_ w hw
        · rintro s₂' hs
          cases hs
          exact ⟨s₁, rfl, hs12⟩
        · rintro s₁' hs
          cases hs
          exact fun t' ht' => hcur1b s₁ hc1 t' (List.mem_cons_of_mem _ ht')
        · intro w' hw'
          rcases hacc w' hw' with h | ⟨s₁', hcc, h1, h2, h3⟩
          · exact Or.inl h
          · rw [hc1] at hcc
            cases hcc
            exact Or.inr ⟨s₁, rfl, h1,
              fun t' ht' => h2 t' (List.mem_cons_of_mem _ ht'), h3⟩
    | false =>
      cases cur₂ with
      | none =>
        rw [scanLoop_cons_stayoff hg2] at hw
        cases hg1 : g₁ t with
        | true =>
          cases hc1 : cur₁ with
          | none =>
            rw [scanLoop_cons_open hg1]
            refine ih none (some t) acc₂ acc₁ himp_tail hsort.2 hbound_tail
              ?_ ?_ ?_ w hw
            · rintro s₂ hs
              cases hs
            · rintro s₁ hs
              cases hs
              exact hsort.1
            · intro w' hw'
              rcases hacc w' hw' with h | ⟨s₁, hcc, -⟩
              · exact Or.inl h
              · rw [hc1] at hcc
                cases hcc
          | some s₁ =>
            rw [scanLoop_cons_stayon hg1]
            refine ih none (some s₁) acc₂ acc₁ himp_tail hsort.2 hbound_tail
              ?_ ?_ ?_ w hw
            · rintro s₂ hs
              cases hs
            · rintro s₁' hs
              cases hs
              exact fun t' ht' => hcur1b s₁ hc1 t' (List.mem_cons_of_mem _ ht')
            · intro w' hw'
              rcases hacc w' hw' with h | ⟨s₁', hcc, h1, h2, h3⟩
              · exact Or.inl h
              · rw [hc1] at hcc
                cases hcc
                exact Or.inr ⟨s₁, rfl, h1,
                  fun t' ht' => h2 t' (List.mem_cons_of_mem _ ht'), h3⟩
        | false =>
          cases hc1 : cur₁ with
          | none =>
            rw [scanLoop_cons_stayoff hg1]
            refine ih none none acc₂ acc₁ himp_tail hsort.2 hbound_tail
              ?_ ?_ ?_ w hw
            · rintro s₂ hs
              cases hs
            · rintro s₁ hs
              cases hs
            · intro w' hw'
              rcases hacc w' hw' with h | ⟨s₁, hcc, -⟩
              · exact Or.inl h
              · rw [hc1] at hcc
                cases hcc
          | some s₁ =>
            rw [scanLoop_cons_close hg1]
            refine ih none none acc₂ (acc₁ ++ [⟨s₁, t⟩]) himp_tail hsort.2
              hbound_tail ?_ ?_ ?_ w hw
            · rintro s₂ hs
              cases hs
            · rintro s₁' hs
              cases hs
            · intro w' hw'
              rcases hacc w' hw' with ⟨u, hu, h1, h2⟩ | ⟨s₁', hcc, h1, h2, -⟩
              · exact Or.inl ⟨u, List.mem_append_left _ hu, h1, h2⟩
              · rw [hc1] at hcc
                cases hcc
                exact Or.inl ⟨⟨s₁, t⟩, List.mem_append_right _ (by simp), h1,
                  h2 t (List.mem_cons_self _ _)⟩
      | some s₂ =>
        obtain ⟨s₁, hc1, hs12⟩ := hcur s₂ rfl
        rw [scanLoop_cons_close hg2] at hw
        cases hg1 : g₁ t with
        | true =>
          rw [hc1, scanLoop_cons_stayon hg1]
          refine ih none (some s₁) (acc₂ ++ [⟨s₂, t⟩]) acc₁ himp_tail hsort.2
            hbound_tail ?_ ?_ ?_ w hw
          · rintro s₂' hs
            cases hs
          · rintro s₁' hs
            cases hs
            exact fun t' ht' => hcur1b s₁ hc1 t' (List.mem_cons_of_mem _ ht')
          · intro w' hw'
            rcases List.mem_append.mp hw' with hw'' | hw''
            · rcases hacc w' hw'' with h | ⟨s₁', hcc, h1, h2, h3⟩
              · exact Or.inl h
              · rw [hc1] at hcc
                cases hcc
                exact Or.inr ⟨s₁, rfl, h1,
                  fun t' ht' => h2 t' (List.mem_cons_of_mem _ ht'), h3⟩
            · rw [List.mem_singleton] at hw''
              subst hw''
              exact Or.inr ⟨s₁, rfl, hs12, hsort.1, hbound_head⟩
        | false =>
          rw [hc1, scanLoop_cons_close hg1]
          refine ih none none (acc₂ ++ [⟨s₂, t⟩]) (acc₁ ++ [⟨s₁, t⟩]) himp_tail
            hsort.2 hbound_tail ?_ ?_ ?_ w hw
          · rintro s₂' hs
            cases hs
          · rintro s₁' hs
            cases hs
          · intro w' hw'
            rcases List.mem_append.mp hw' with hw'' | hw''
            · rcases hacc w' hw'' with ⟨u, hu, h1, h2⟩ | ⟨s₁', hcc, h1, h2, -⟩
              · exact Or.inl ⟨u, List.mem_append_left _ hu, h1, h2⟩
              · rw [hc1] at hcc
                cases hcc
                exact Or.inl ⟨⟨s₁, t⟩, List.mem_append_right _ (by simp), h1,
                  h2 t (List.mem_cons_self _ _)⟩
            · rw [List.mem_singleton] at hw''
              subst hw''
              exact Or.inl ⟨⟨s₁, t⟩, List.mem_append_right _ (by simp), hs12,
                le_refl _⟩

theorem pairwise_mem_rel {α : Type} {R : α → α → Prop} :
    ∀ {l : List α}, l.Pairwise R → ∀ {a b : α}, a ∈ l → b ∈ l →
      a = b ∨ R a b ∨ R b a := by
  intro l h
  induction h with
  | nil =>
    intro a b ha _
    cases ha
  | cons hr _ ih =>
    intro a b ha hb
    rcases List.mem_cons.mp ha with rfl | ha'
    · rcases List.mem_cons.mp hb with rfl | hb'
      · exact Or.inl rfl
      · exact Or.inr (Or.inl (hr b hb'))
    · rcases List.mem_cons.mp hb with rfl | hb'
      · exact Or.inr (Or.inr (hr a ha'))
      · exact ih ha' hb'

/-- Lifting window containment through the merge loop: if `M₁` is a
well-formed, gap-separated list (a merge output) that contains every input
window of the second merge, then it also contains every output window of
the second merge. -/
theorem mergeLoop_lift {tol : ℤ} (htol : 0 ≤ tol) (M₁ : List SunWindow)
    (hM₁sep : M₁.Pairwise (sepGap tol)) :
    ∀ (ws₂ : List SunWindow) (cur₂ : SunWindow),
      (∀ w ∈ ws₂, w.start ≤ w.end_) →
      (∀ w ∈ ws₂, cur₂.start ≤ w.start) →
      ws₂.Pairwise (fun a b => a.start ≤ b.start) →
      (∃ v₁ ∈ M₁, v₁.start ≤ cur₂.start ∧ cur₂.end_ ≤ v₁.end_) →
      (∀ w ∈ ws₂, ∃ u ∈ M₁, u.start ≤ w.start ∧ w.end_ ≤ u.end_) →
      ∀ v ∈ mergeLoop tol cur₂ ws₂,
        ∃ v₁ ∈ M₁, v₁.start ≤ v.start ∧ v.end_ ≤ v₁.end_ := by
  intro ws₂
  induction ws₂ with
  | nil =>
    intro cur₂ _ _ _ hcur _ v hv
    simp only [mergeLoop, List.mem_singleton] at hv
    exact hv ▸ hcur
  | cons w ws ih =>
    intro cur₂ hwf hmono hsort hcur hcont v hv
    rw [List.pairwise_cons] at hsort
    simp only [mergeLoop] at hv
    split at hv
    case isTrue habs =>
      obtain ⟨v₁, hv₁, hv₁s, hv₁e⟩ := hcur
      obtain ⟨u, hu, hus, hue⟩ := hcont w (List.mem_cons_self _ _)
      have hwend : w.end_ ≤ v₁.end_ := by
        rcases pairwise_mem_rel hM₁sep hv₁ hu with rfl | hsep | hsep
        · exact hue
        · exfalso
          simp only [sepGap] at hsep
          have hws : w.start ≤ cur₂.end_ + tol := by omega
          omega
        · exfalso
          simp only [sepGap] at hsep
          have hw1 : w.start ≤ w.end_ := hwf w (List.mem_cons_self _ _)
          have hw2 : cur₂.start ≤ w.start := hmono w (List.mem_cons_self _ _)
          omega
      refine ih ⟨cur₂.start, max cur₂.end_ w.end_⟩
        (fun u' hu' => hwf u' (List.mem_cons_of_mem _ hu'))
        (fun u' hu' => hmono u' (List.mem_cons_of_mem _ hu')) hsort.2
        ⟨v₁, hv₁, hv₁s, max_le hv₁e hwend⟩
        (fun u' hu' => hcont u' (List.mem_cons_of_mem _ hu')) v hv
    case isFalse hsplit =>
      rcases List.mem_cons.mp hv with rfl | hv'
      · exact hcur
      · exact ih w (fun u' hu' => hwf u' (List.mem_cons_of_mem _ hu'))
          hsort.1 hsort.2 (hcont w (List.mem_cons_self _ _))
          (fun u' hu' => hcont u' (List.mem_cons_of_mem _ hu')) v hv'

/-- Containment of merged window lists: if every window of `W₂` is contained
in some window of `W₁` (both well-formed), then every merged window of `W₂`
is contained in some merged window of `W₁`. -/
theorem merge_adjacent_mono (step : ℤ) (hstep : 0 < step)
    (W₂ W₁ : List SunWindow)
    (hwf₂ : ∀ w ∈ W₂, w.start ≤ w.end_)
    (hwf₁ : ∀ w ∈ W₁, w.start ≤ w.end_)
    (hcont : ∀ w ∈ W₂, ∃ u ∈ W₁, u.start ≤ w.start ∧ w.end_ ≤ u.end_) :
    ∀ v ∈ merge_adjacent W₂ step, ∃ v₁ ∈ merge_adjacent W₁ step,
      v₁.start ≤ v.start ∧ v.end_ ≤ v₁.end_ := by
  intro v hv
  have hM₁wf := merge_adjacent_wf W₁ step hwf₁
  have hM₁sep : (merge_adjacent W₁ step).Pairwise (sepGap (minutes step)) :=
    chain_gap_pairwise (le_of_lt (minutes_pos hstep)) _ hM₁wf
      (merge_adjacent_gap_chain W₁ step)
  have hcont' : ∀ w ∈ stableSort (fun a b => decide (a.start ≤ b.start)) W₂,
      ∃ u ∈ merge_adjacent W₁ step, u.start ≤ w.start ∧ w.end_ ≤ u.end_ := by
    intro w hw
    obtain ⟨u, hu, h1, h2⟩ := hcont w (mem_stableSort.mp hw)
    obtain ⟨v₁, hv₁, h3, h4⟩ := merge_adjacent_covers W₁ step u hu
    exact ⟨v₁, hv₁, le_trans h3 h1, le_trans h2 h4⟩
  have hwf₂' : ∀ w ∈ stableSort (fun a b => decide (a.start ≤ b.start)) W₂,
      w.start ≤ w.end_ := fun w hw => hwf₂ w (mem_stableSort.mp hw)
  have hsorted := stableSort_pairwise startLE_total startLE_trans W₂
  unfold merge_adjacent at hv
  cases hs : stableSort (fun a b => decide (a.start ≤ b.start)) W₂ with
  | nil =>
    rw [hs] at hv
    cases hv
  | cons c cs =>
    rw [hs] at hv hcont' hwf₂' hsorted
    rw [List.pairwise_cons] at hsorted
    exact mergeLoop_lift (le_of_lt (minutes_pos hstep)) _ hM₁sep cs c
      (fun u hu => hwf₂' u (List.mem_cons_of_mem _ hu))
      (fun u hu => of_decide_eq_true (hsorted.1 u hu))
      (hsorted.2.imp fun hab => of_decide_eq_true hab)
      (hcont' c (List.mem_cons_self _ _))
      (fun u hu => hcont' u (List.mem_cons_of_mem _ hu)) v hv

/-- Containment of whole scanned-and-merged runs under a pointwise weaker
good-predicate. -/
theorem merged_scan_mono (g₂ g₁ : ℤ → Bool) (endT : ℤ) (ts : List ℤ)
    (step : ℤ) (hstep : 0 < step)
    (himp : ∀ t ∈ ts, g₂ t = true → g₁ t = true)
    (hsort : ts.Pairwise (· ≤ ·))
    (hbound : ∀ t ∈ ts, t ≤ endT) :
    ∀ v ∈ merge_adjacent (scanLoop g₂ endT ts none []) step,
      ∃ v₁ ∈ merge_adjacent (scanLoop g₁ endT ts none []) step,
        v₁.start ≤ v.start ∧ v.end_ ≤ v₁.end_ := by
  have hwf₂ : ∀ w ∈ scanLoop g₂ endT ts none [], w.start ≤ w.end_ :=
    fun w hw => scanLoop_wf g₂ endT ts none [] (by simp)
      (fun s hs => Option.noConfusion hs) hsort hbound w hw
  have hwf₁ : ∀ w ∈ scanLoop g₁ endT ts none [], w.start ≤ w.end_ :=
    fun w hw => scanLoop_wf g₁ endT ts none [] (by simp)
      (fun s hs => Option.noConfusion hs) hsort hbound w hw
  have hcont : ∀ w ∈ scanLoop g₂ endT ts none [],
      ∃ u ∈ scanLoop g₁ endT ts none [], u.start ≤ w.start ∧ w.end_ ≤ u.end_ :=
    scanLoop_mono g₂ g₁ endT ts none none [] [] himp hsort hbound
      (fun s hs => Option.noConfusion hs) (fun s hs => Option.noConfusion hs)
      (fun w hw => absurd hw (List.not_mem_nil w))
  exact merge_adjacent_mono step hstep _ _ hwf₂ hwf₁ hcont

/-- C7 (status: confirmed).  For fixed provider, location midnight, azimuth
intervals and step, the scanner is antitone in `min_elevation_deg`: every
instant covered by a window returned for the higher threshold `e2` is also
covered by a window returned for any lower threshold `e1 ≤ e2`. -/
theorem C7_scanner_antitone_in_min_elevation
    (el az : ℤ → ℚ) (startT : ℤ) (ivs : List AzInterval) (e1 e2 : ℚ)
    (step : ℤ) (he : e1 ≤ e2) (hstep : 0 < step) :
    ∀ x : ℤ, coveredBy (sun_windows_for_day el az startT ivs e2 step) x →
      coveredBy (sun_windows_for_day el az startT ivs e1 step) x := by
  intro x hcov
  obtain ⟨v, hv, hx1, hx2⟩ := hcov
  by_cases hivs : ivs.isEmpty
  · rw [sun_windows_for_day, if_pos hivs] at hv
    cases hv
  · rw [sun_windows_for_day, if_neg hivs] at hv
    have hday : startT ≤ startT + minutes 1440 := by
      have := minutes_pos (show (0 : ℤ) < 1440 by norm_num)
      omega
    have hstepus : 0 < minutes step := minutes_pos hstep
    have himp : ∀ t ∈ sampleTimes startT (minutes step)
        (numSteps startT (startT + minutes 1440) (minutes step)),
        (decide (e2 ≤ el t) &&
          ivs.any (fun iv => _wrap_contains iv (az t))) = true →
        (decide (e1 ≤ el t) &&
          ivs.any (fun iv => _wrap_contains iv (az t))) = true := by
      intro t _ h
      simp only [Bool.and_eq_true, decide_eq_true_eq] at h ⊢
      exact ⟨le_trans he h.1, h.2⟩
    obtain ⟨v₁, hv₁, h1, h2⟩ := merged_scan_mono _ _ (startT + minutes 1440) _
      step hstep himp
      (sampleTimes_sorted _ _ _ (le_of_lt hstepus))
      (sampleTimes_le_endT startT (startT + minutes 1440) (minutes step)
        hstepus hday) v hv
    refine ⟨v₁, ?_, le_trans h1 hx1, le_trans hx2 h2⟩
    rw [sun_windows_for_day, if_neg hivs]
    exact hv₁

/-- Witness for C7 at concrete inputs. -/
theorem C7_scanner_antitone_in_min_elevation_witness :
    ((-90 : ℚ) ≤ 5) ∧ ((0 : ℤ) < 60) ∧
    coveredBy (sun_windows_for_day (fun _ => 10) (fun _ => 100) 0
      [⟨0, 359⟩] 5 60) 0 ∧
    coveredBy (sun_windows_for_day (fun _ => 10) (fun _ => 100) 0
      [⟨0, 359⟩] (-90) 60) 0 :=
  ⟨by decide, by decide, by decide,
    C7_scanner_antitone_in_min_elevation (fun _ => 10) (fun _ => 100) 0
      [⟨0, 359⟩] (-90) 5 60 (by decide) (by decide) 0 (by decide)⟩
